import Mathlib

/-!
Verification development for the `prxssh/echo` BitTorrent client.

The Go sources are shallowly embedded: byte streams become `List Nat`
(each entry one byte), Go `int64` becomes `Int` with explicit range
checks where the code performs them, fallible code returns
`Except String` or `Option`, and the Go runtime panic that a nil
pointer dereference raises is modelled by `Option` with `none` for the
fault.  Go `map[string]any` values are unordered finite maps; they are
represented canonically as association lists strictly sorted by
byte-wise key order (`map[k] = v` insertion replaces an existing
binding), which is exactly the order the canonical encoder emits.
-/

namespace Echo

/-- Bencode values as produced by `internal/bencode`: byte string,
signed 64-bit integer, list, dictionary with byte-string keys
(`any` in the Go code ranges over exactly these four shapes). -/
inductive BValue where
  | str : List Nat → BValue
  | int : Int → BValue
  | list : List BValue → BValue
  | dict : List (List Nat × BValue) → BValue

/-- Byte-wise lexicographic strict order on byte strings, the order
`sort.Strings` uses in `encodeDict`. -/
def byteLt : List Nat → List Nat → Bool
  | [], [] => false
  | [], _ :: _ => true
  | _ :: _, [] => false
  | a :: as, b :: bs => a < b || (a = b && byteLt as bs)

/-- Insertion into the canonical (sorted, duplicate-free) association
list representing a Go `map[string]any`; `dict[key] = val` replaces an
existing binding (last write wins). -/
def mapInsert : List (List Nat × BValue) → List Nat → BValue → List (List Nat × BValue)
  | [], k, v => [(k, v)]
  | (k0, v0) :: t, k, v =>
    if byteLt k k0 then (k, v) :: (k0, v0) :: t
    else if k = k0 then (k, v) :: t
    else (k0, v0) :: mapInsert t k v

/-- Go map lookup `m[key]` on the association-list representation. -/
def lookupKey (d : List (List Nat × BValue)) (k : List Nat) : Option BValue :=
  match d.find? (fun p => p.1 = k) with
  | some p => some p.2
  | none => none

/-- `bufio.Reader.ReadBytes(delim)`: the bytes before the first
occurrence of `delim` and the rest after it; `none` when `delim` never
occurs (EOF error in Go). -/
def splitAtByte (d : Nat) : List Nat → Option (List Nat × List Nat)
  | [] => none
  | b :: t =>
    if b = d then some ([], t)
    else
      match splitAtByte d t with
      | none => none
      | some (pre, post) => some (b :: pre, post)

/-- ASCII decimal digit test. -/
def isDigit (c : Nat) : Bool := 48 ≤ c && c ≤ 57

/-- Value of an ASCII digit string, most significant first. -/
def digitsToNat (s : List Nat) : Nat :=
  s.foldl (fun a c => a * 10 + (c - 48)) 0

/-- Model of Go `strconv.ParseInt(s, 10, 64)`: an optional `+`/`-`
sign, then at least one decimal digit, leading zeros allowed (`007`
parses to 7, `-0` to 0), value checked against the signed 64-bit
range. -/
def parseInt64 (s : List Nat) : Option Int :=
  match s with
  | [] => none
  | c :: rest =>
    let neg := c = 45
    let digits := if c = 45 || c = 43 then rest else c :: rest
    if digits = [] then none
    else if !digits.all isDigit then none
    else
      let n := digitsToNat digits
      if neg then
        if n ≤ 2 ^ 63 then some (-(n : Int)) else none
      else
        if n ≤ 2 ^ 63 - 1 then some (n : Int) else none

/-- `Decoder.decodeString` minus the initial dispatch: read the ASCII
length up to `:` (via `readInteger`), reject negative lengths, then
read exactly that many bytes; returns the raw bytes and the unread
remainder. -/
def decodeStringFrom (s : List Nat) : Except String (List Nat × List Nat) :=
  match splitAtByte 58 s with
  | none => Except.error "bencode: eof"
  | some (szBytes, rest) =>
    match parseInt64 szBytes with
    | none => Except.error "bencode: invalid integer"
    | some size =>
      if size = 0 then Except.ok ([], rest)
      else if size < 0 then Except.error "bencode: invalid string, length cant be negative"
      else
        let n := size.toNat
        if rest.length < n then Except.error "bencode: eof"
        else Except.ok (rest.take n, rest.drop n)

/-- `Decoder.decodeInteger`: bytes up to the `e` delimiter parsed with
`strconv.ParseInt`. -/
def decodeIntegerFrom (s : List Nat) : Except String (BValue × List Nat) :=
  match splitAtByte 101 s with
  | none => Except.error "bencode: eof"
  | some (body, rest) =>
    match parseInt64 body with
    | none => Except.error "bencode: invalid integer"
    | some v => Except.ok (BValue.int v, rest)

mutual

/-- `Decoder.Decode`: dispatch on the first byte (`i` integer, `l`
list, `d` dict, anything else a string after `UnreadByte`).  The `fuel`
argument only bounds the recursion depth; `decodeTop` supplies enough
for any input. -/
def decodeVal : Nat → List Nat → Except String (BValue × List Nat)
  | 0, _ => Except.error "bencode: fuel"
  | _ + 1, [] => Except.error "bencode: eof"
  | fuel + 1, b :: s =>
    if b = 105 then decodeIntegerFrom s
    else if b = 108 then decodeListItems fuel s []
    else if b = 100 then decodeDictItems fuel s []
    else
      match decodeStringFrom (b :: s) with
      | Except.error e => Except.error e
      | Except.ok (bytes, rest) => Except.ok (BValue.str bytes, rest)

/-- `Decoder.decodeList` loop: peek one byte, stop on `e`, otherwise
decode one value and append. -/
def decodeListItems : Nat → List Nat → List BValue → Except String (BValue × List Nat)
  | 0, _, _ => Except.error "bencode: fuel"
  | _ + 1, [], _ => Except.error "bencode: eof"
  | fuel + 1, b :: s, acc =>
    if b = 101 then Except.ok (BValue.list acc.reverse, s)
    else
      match decodeVal fuel (b :: s) with
      | Except.error e => Except.error e
      | Except.ok (v, rest) => decodeListItems fuel rest (v :: acc)

/-- `Decoder.decodeDict` loop: peek one byte, stop on `e`, otherwise
decode a string key, then a value, then `dict[key] = val`. -/
def decodeDictItems : Nat → List Nat → List (List Nat × BValue) → Except String (BValue × List Nat)
  | 0, _, _ => Except.error "bencode: fuel"
  | _ + 1, [], _ => Except.error "bencode: eof"
  | fuel + 1, b :: s, acc =>
    if b = 101 then Except.ok (BValue.dict acc, s)
    else
      match decodeStringFrom (b :: s) with
      | Except.error e => Except.error e
      | Except.ok (k, rest) =>
        match decodeVal fuel rest with
        | Except.error e => Except.error e
        | Except.ok (v, rest2) => decodeDictItems fuel rest2 (mapInsert acc k v)

end

/-- One `Decoder.Decode` call on a byte stream: the decoded value and
the unread remainder.  The fuel `2 * s.length + 2` is enough for any
input because every recursive step consumes at least one byte (the
fuel is a proof artifact only — the Go decoder recurses on the
stream). -/
def decodeTop (s : List Nat) : Except String (BValue × List Nat) :=
  decodeVal (2 * s.length + 2) s

/-- ASCII decimal digits of `n`, most significant first (Go
`strconv.Itoa` / `FormatInt` for non-negative values); the fuel
argument makes the division recursion structural. -/
def natToAsciiAux : Nat → Nat → List Nat
  | 0, _ => []
  | fuel + 1, n =>
    if n < 10 then [n + 48]
    else natToAsciiAux fuel (n / 10) ++ [n % 10 + 48]

/-- ASCII decimal representation of a natural number. -/
def natToAscii (n : Nat) : List Nat := natToAsciiAux (n + 1) n

/-- Go `strconv.FormatInt(v, 10)`. -/
def intToAscii (v : Int) : List Nat :=
  if v < 0 then 45 :: natToAscii v.natAbs else natToAscii v.toNat

/-- `Encoder.encodeString`: `<decimal length>:<bytes>`. -/
def encodeStr (s : List Nat) : List Nat := natToAscii s.length ++ 58 :: s

mutual

/-- `Encoder.Encode` over the four supported value kinds (the
`default:` unsupported-type error cannot fire on `BValue`). -/
def encodeVal : BValue → List Nat
  | BValue.str s => encodeStr s
  | BValue.int v => 105 :: intToAscii v ++ [101]
  | BValue.list l => 108 :: encodeItems l ++ [101]
  | BValue.dict d => 100 :: encodePairs d ++ [101]

/-- `Encoder.encodeList` body: elements in order. -/
def encodeItems : List BValue → List Nat
  | [] => []
  | v :: t => encodeVal v ++ encodeItems t

/-- `Encoder.encodeDict` body: keys already in ascending byte order in
the canonical map representation, each key encoded as a string followed
by its value. -/
def encodePairs : List (List Nat × BValue) → List Nat
  | [] => []
  | (k, v) :: t => encodeStr k ++ encodeVal v ++ encodePairs t

end

def keysSorted : List (List Nat) → Bool
  | [] => true
  | [_] => true
  | a :: b :: t => byteLt a b && keysSorted (b :: t)

mutual

/-- Well-formedness of a `BValue` as the image of a Go value: string
lengths and integers fit in int64, and dictionaries are canonical
(strictly sorted keys), as every `map[string]any` representation is. -/
def wfB : BValue → Bool
  | BValue.str s => decide (s.length ≤ 2 ^ 63 - 1)
  | BValue.int v => decide (-(2 ^ 63) ≤ v) && decide (v ≤ 2 ^ 63 - 1)
  | BValue.list l => wfItems l
  | BValue.dict d => wfPairs d && keysSorted (d.map Prod.fst)

def wfItems : List BValue → Bool
  | [] => true
  | v :: t => wfB v && wfItems t

def wfPairs : List (List Nat × BValue) → Bool
  | [] => true
  | (k, v) :: t => decide (k.length ≤ 2 ^ 63 - 1) && wfB v && wfPairs t

end

mutual

/-- Recursion depth the fueled decoder needs for a value. -/
def fuelB : BValue → Nat
  | BValue.str _ => 1
  | BValue.int _ => 1
  | BValue.list l => 1 + fuelItems l
  | BValue.dict d => 1 + fuelPairs d

def fuelItems : List BValue → Nat
  | [] => 1
  | v :: t => 1 + fuelB v + fuelItems t

def fuelPairs : List (List Nat × BValue) → Nat
  | [] => 1
  | (_, v) :: t => 1 + fuelB v + fuelPairs t

end

/-- Folding `dict[key] = val` insertions over a pair list, as the dict
decoding loop does. -/
def insertAll : List (List Nat × BValue) → List (List Nat × BValue) → List (List Nat × BValue)
  | acc, [] => acc
  | acc, (k, v) :: t => insertAll (mapInsert acc k v) t

/-- `File` in metainfo.go: length in bytes and path elements. -/
structure MFile where
  length : Nat
  path : List (List Nat)
deriving DecidableEq

/-- `Info` in metainfo.go.  `hash` is the output of the SHA-1 function
supplied to the parser. -/
structure MInfo where
  hash : List Nat
  name : List Nat
  files : Option (List MFile)
  pieceLength : Nat
  pieces : List (List Nat)
  priv : Bool
deriving DecidableEq

/-- `FileMode`. -/
inductive FileMode where
  | single
  | multiple
deriving DecidableEq

/-- `Metainfo` in metainfo.go (`CreationDate` kept as the raw Unix
seconds passed to `time.Unix`). -/
structure Metainfo where
  info : MInfo
  announceURLs : List (List Nat)
  creationDate : Int
  comment : List Nat
  encoding : List Nat
  mode : FileMode
  size : Nat
deriving DecidableEq

def kInfo : List Nat := [105, 110, 102, 111]

def kAnnounce : List Nat := [97, 110, 110, 111, 117, 110, 99, 101]

def kAnnounceList : List Nat := [97, 110, 110, 111, 117, 110, 99, 101, 45, 108, 105, 115, 116]

def kCreationDate : List Nat := [99, 114, 101, 97, 116, 105, 111, 110, 32, 100, 97, 116, 101]

def kComment : List Nat := [99, 111, 109, 109, 101, 110, 116]

def kEncoding : List Nat := [101, 110, 99, 111, 100, 105, 110, 103]

def kPieceLength : List Nat := [112, 105, 101, 99, 101, 32, 108, 101, 110, 103, 116, 104]

def kPieces : List Nat := [112, 105, 101, 99, 101, 115]

def kPrivate : List Nat := [112, 114, 105, 118, 97, 116, 101]

def kLength : List Nat := [108, 101, 110, 103, 116, 104]

def kFiles : List Nat := [102, 105, 108, 101, 115]

def kPath : List Nat := [112, 97, 116, 104]

def kName : List Nat := [110, 97, 109, 101]

/-- `stringFrom`: `m[key].(string)`. -/
def stringFrom (m : List (List Nat × BValue)) (key : List Nat) : Option (List Nat) :=
  match lookupKey m key with
  | some (BValue.str s) => some s
  | _ => none

/-- `intFrom`: `m[key].(int64)`. -/
def intFrom (m : List (List Nat × BValue)) (key : List Nat) : Option Int :=
  match lookupKey m key with
  | some (BValue.int v) => some v
  | _ => none

/-- `parser.getString`: defaults to the empty string. -/
def getString (m : List (List Nat × BValue)) (key : List Nat) : List Nat :=
  (stringFrom m key).getD []

/-- `parser.getInt`: defaults to 0. -/
def getInt (m : List (List Nat × BValue)) (key : List Nat) : Int :=
  (intFrom m key).getD 0

/-- `computeInfoHash`: canonically re-encode the decoded "info"
dictionary and hash it.  `sha` abstracts `crypto/sha1` (an external
library, not code of this repository); the Go encoder cannot fail on a
decoded value, so the model is total. -/
def computeInfoHash (sha : List Nat → List Nat) (raw : List (List Nat × BValue)) : List Nat :=
  sha (encodeVal (BValue.dict raw))

/-- `parsePieceLength`. -/
def parsePieceLength (raw : List (List Nat × BValue)) : Except String Nat :=
  match intFrom raw kPieceLength with
  | none => Except.error "metainfo: missing piece length"
  | some pl =>
    if pl ≤ 0 then Except.error "metainfo: invalid piece length"
    else Except.ok pl.toNat

/-- The `i*sha1.Size : (i+1)*sha1.Size` slicing loop of `parsePieces`. -/
def chunksN : Nat → List Nat → List (List Nat)
  | 0, _ => []
  | k + 1, b => b.take 20 :: chunksN k (b.drop 20)

/-- `parsePieces`: the "pieces" byte string split into 20-byte hashes. -/
def parsePieces (raw : List (List Nat × BValue)) : Except String (List (List Nat)) :=
  match stringFrom raw kPieces with
  | none => Except.error "metainfo: missing or invalid pieces"
  | some s =>
    if s.length % 20 ≠ 0 then
      Except.error "metainfo: pieces length is not a multiple of 20 bytes"
    else Except.ok (chunksN (s.length / 20) s)

/-- `parsePrivateFlag`. -/
def parsePrivateFlag (raw : List (List Nat × BValue)) : Bool :=
  match intFrom raw kPrivate with
  | some v => v = 1
  | none => false

/-- Path elements of one file entry; `none` at the first non-string
element. -/
def parsePath : List BValue → Option (List (List Nat))
  | [] => some []
  | BValue.str s :: t =>
    match parsePath t with
    | some p => some (s :: p)
    | none => none
  | _ => none

/-- `parseMultiFiles` loop: each entry needs a dictionary with a
non-negative "length" and a non-empty all-string "path"; the running
total wraps as a Go `uint64`. -/
def parseMultiFilesLoop : List BValue → List MFile → Nat → Except String (List MFile × Nat)
  | [], acc, total => Except.ok (acc.reverse, total)
  | fe :: t, acc, total =>
    match fe with
    | BValue.dict fdict =>
      match intFrom fdict kLength with
      | none => Except.error "metainfo: invalid or missing file length"
      | some l =>
        if l < 0 then Except.error "metainfo: invalid or missing file length"
        else
          match lookupKey fdict kPath with
          | some (BValue.list pathAny) =>
            if pathAny.isEmpty then Except.error "metainfo: invalid or missing file path"
            else
              match parsePath pathAny with
              | none => Except.error "metainfo: non-string path element"
              | some path =>
                parseMultiFilesLoop t (MFile.mk l.toNat path :: acc)
                  ((total + l.toNat) % 2 ^ 64)
          | _ => Except.error "metainfo: invalid or missing file path"
    | _ => Except.error "metainfo: file entry is not a dictionary"

/-- `parseFilesSection`: "files" decides multi-file mode, otherwise a
non-negative "length" gives single-file. -/
def parseFilesSection (raw : List (List Nat × BValue)) :
    Except String (Option (List MFile) × Nat) :=
  match lookupKey raw kFiles with
  | some (BValue.list filesAny) =>
    match parseMultiFilesLoop filesAny [] 0 with
    | Except.error e => Except.error e
    | Except.ok (fl, total) => Except.ok (some fl, total)
  | _ =>
    match intFrom raw kLength with
    | none => Except.error "metainfo: missing or invalid length for single-file torrent"
    | some l =>
      if l < 0 then Except.error "metainfo: missing or invalid length for single-file torrent"
      else Except.ok (none, l.toNat)

/-- `parser.parseInfoDict`. -/
def parseInfoDict (sha : List Nat → List Nat) (data : List (List Nat × BValue)) :
    Except String (MInfo × Nat) :=
  match lookupKey data kInfo with
  | some (BValue.dict raw) =>
    let hash := computeInfoHash sha raw
    match parsePieceLength raw with
    | Except.error e => Except.error e
    | Except.ok pieceLength =>
      match parsePieces raw with
      | Except.error e => Except.error e
      | Except.ok pieces =>
        match parseFilesSection raw with
        | Except.error e => Except.error e
        | Except.ok (files, totalSize) =>
          Except.ok (MInfo.mk hash (getString raw kName) files pieceLength pieces
            (parsePrivateFlag raw), totalSize)
  | _ => Except.error "metainfo: missing or invalid info dictionary"

/-- Inner loop of `parseAnnounceURLs` over one tier: skip non-strings
and empty strings, skip URLs already collected (the Go `seen` set
always holds exactly the URLs collected so far), append the rest. -/
def annTierLoop : List BValue → List (List Nat) → List (List Nat)
  | [], urls => urls
  | u :: t, urls =>
    match u with
    | BValue.str s =>
      if s = [] then annTierLoop t urls
      else if urls.contains s then annTierLoop t urls
      else annTierLoop t (urls ++ [s])
    | _ => annTierLoop t urls

/-- Outer loop of `parseAnnounceURLs` over the tiers: tiers that are
not lists are skipped. -/
def annTiersLoop : List BValue → List (List Nat) → List (List Nat)
  | [], urls => urls
  | tier :: rest, urls =>
    match tier with
    | BValue.list items => annTiersLoop rest (annTierLoop items urls)
    | _ => annTiersLoop rest urls

/-- `parser.parseAnnounceURLs`: flatten "announce-list" tiers dropping
empties and duplicates; fall back to "announce" only when that leaves
nothing. -/
def parseAnnounceURLs (data : List (List Nat × BValue)) : List (List Nat) :=
  let urls :=
    match lookupKey data kAnnounceList with
    | some (BValue.list tiers) => annTiersLoop tiers []
    | _ => []
  if urls = [] then
    match lookupKey data kAnnounce with
    | some (BValue.str a) => if a = [] then [] else [a]
    | _ => []
  else urls

/-- `New` / `ParseMetainfo` followed by `parser.parse`: decode the
input, require a top-level dictionary (trailing bytes are ignored, as
`Decoder.Decode` reads one value), then assemble the `Metainfo`. -/
def parseMetainfo (sha : List Nat → List Nat) (input : List Nat) : Except String Metainfo :=
  match decodeTop input with
  | Except.error e => Except.error e
  | Except.ok (BValue.dict data, _) =>
    match parseInfoDict sha data with
    | Except.error e => Except.error e
    | Except.ok (info, totalSize) =>
      Except.ok (Metainfo.mk info (parseAnnounceURLs data)
        (getInt data kCreationDate) (getString data kComment)
        (getString data kEncoding)
        (if info.files.isSome then FileMode.multiple else FileMode.single)
        totalSize)
  | Except.ok _ => Except.error "metainfo: top-level is not a bencoded dictionary"

/-- The digit part of an integer mantissa after Go `strconv.ParseInt`
strips one optional leading `+` or `-`. -/
def mantissaDigits (m : List Nat) : List Nat :=
  match m with
  | [] => []
  | c :: rest => if c = 45 || c = 43 then rest else c :: rest

/-- Whether the mantissa carries a leading minus sign. -/
def mantissaNeg (m : List Nat) : Bool :=
  match m with
  | [] => false
  | c :: _ => c = 45

/-! ## Claim theorems: bencode codec and metainfo parser -/

def tcInfoPairs : List (List Nat × BValue) :=
  [(kLength, BValue.int 1), (kName, BValue.str [120]),
   (kPieceLength, BValue.int 1), (kPieces, BValue.str (List.replicate 20 0))]

def tcBytes : List Nat := encodeVal (BValue.dict [(kInfo, BValue.dict tcInfoPairs)])

def tcSha : List Nat → List Nat := fun _ => List.replicate 20 7

def tcMeta : Metainfo :=
  Metainfo.mk (MInfo.mk (List.replicate 20 7) [120] none 1 [List.replicate 20 0] false)
    [] 0 [] [] FileMode.single 1

def rtBytes : List Nat :=
  [100, 51, 58, 98, 97, 114, 52, 58, 115, 112, 97, 109, 51, 58, 102,
   111, 111, 105, 52, 50, 101, 101]

def rtVal : BValue :=
  BValue.dict [([98, 97, 114], BValue.str [115, 112, 97, 109]),
    ([102, 111, 111], BValue.int 42)]

/-- Spec-side description of announce-URL extraction: flatten the
tiers in order, drop empty strings, keep only the first occurrence of
each URL. -/
def keepFirsts (l : List (List Nat)) : List (List Nat) :=
  l.foldl (fun acc s => if acc.contains s then acc else acc ++ [s]) []

def pstrStandard : List Nat :=
  [66, 105, 116, 84, 111, 114, 114, 101, 110, 116, 32, 112, 114, 111,
   116, 111, 99, 111, 108]

/-- `Handshake` with `Pstr`, 20-byte `InfoHash` and `PeerID`. -/
structure HandshakeS where
  pstr : List Nat
  infoHash : List Nat
  peerID : List Nat
deriving DecidableEq

/-- `NewHandshake`: the standard protocol string with the local
info-hash and the local peer id. -/
def newHandshake (infoHash peerID : List Nat) : HandshakeS :=
  HandshakeS.mk pstrStandard infoHash peerID

/-- `Handshake.Serialize`:
`<pstrlen><pstr><reserved:8><info_hash:20><peer_id:20>`. -/
def serializeHandshake (h : HandshakeS) : List Nat :=
  (h.pstr.length % 256) :: h.pstr ++ List.replicate 8 0 ++ h.infoHash ++ h.peerID

/-- `readHanshake` on the remote bytes: one length byte (must be
nonzero), then exactly `48 + pstrlen` bytes, of which bytes
`[pstrlen+8, pstrlen+28)` are the info-hash and the final 20 the peer
id. -/
def readHanshake (r : List Nat) : Except String HandshakeS :=
  match r with
  | [] => Except.error "eof"
  | pstrlen :: rest =>
    if pstrlen = 0 then Except.error "pstrlen cant be 0"
    else if rest.length < 48 + pstrlen then Except.error "eof"
    else
      let buf := rest.take (48 + pstrlen)
      Except.ok (HandshakeS.mk (buf.take pstrlen)
        ((buf.drop (pstrlen + 8)).take 20)
        (buf.drop (pstrlen + 28)))

/-- `Handshake.Perform`, read side: parse the remote reply, then
require the remote info-hash and the remote peer id to equal the local
handshake fields (the write of our own handshake goes to the socket
and does not affect the result). -/
def performHandshake (h : HandshakeS) (reply : List Nat) : Except String Unit :=
  match readHanshake reply with
  | Except.error e => Except.error e
  | Except.ok res =>
    if h.infoHash ≠ res.infoHash then Except.error "handshake: info hash mismatch"
    else if h.peerID ≠ res.peerID then Except.error "handshake: peer id mismatch"
    else Except.ok ()

def c3IH : List Nat := List.replicate 20 1

def c3PID : List Nat := List.replicate 20 2

def c3RemotePID : List Nat := List.replicate 20 3

def c3Reply : List Nat :=
  19 :: pstrStandard ++ List.replicate 8 0 ++ c3IH ++ c3RemotePID

def c3GoodReply : List Nat :=
  19 :: pstrStandard ++ List.replicate 8 0 ++ c3IH ++ c3PID

/-- A tracker peer candidate; for IPv4 the `ip` field holds the four
address bytes the parser read (Go wraps them in a 16-byte `net.IP`,
which carries no extra information). -/
structure TPeer where
  ip : List Nat
  port : Nat
deriving DecidableEq

/-- `binary.BigEndian.Uint16`. -/
def be16 (hi lo : Nat) : Nat := hi * 256 + lo

/-- An assignment `peer.IP = …; peer.Port = …` through a `*Peer`
pointer: dereferencing nil is a run-time panic, modelled as `none`. -/
def nilAssign (p : Option TPeer) (ip : List Nat) (port : Nat) : Option TPeer :=
  match p with
  | none => none
  | some _ => some (TPeer.mk ip port)

/-- Loop of the first `parseCompactPeers` variant (tracker.go:463):
each iteration declares `var peer *Peer` (nil) and then assigns through
it. -/
def parseCompactPeersV1Loop (b : List Nat) (stride : Nat) (ipv6 : Bool) :
    Nat → Nat → List TPeer → Option (List TPeer)
  | 0, _, acc => some acc.reverse
  | count + 1, i, acc =>
    let offset := i * stride
    let peer : Option TPeer := none
    let assigned :=
      if ipv6 then
        nilAssign peer ((b.drop offset).take 16)
          (be16 (b.getD (offset + 16) 0) (b.getD (offset + 17) 0))
      else
        nilAssign peer ((b.drop offset).take 4)
          (be16 (b.getD (offset + 4) 0) (b.getD (offset + 5) 0))
    match assigned with
    | none => none
    | some p => parseCompactPeersV1Loop b stride ipv6 count (i + 1) (p :: acc)

/-- First `parseCompactPeers` variant: truncate to a whole number of
strides, then run the per-group loop. -/
def parseCompactPeersV1 (b : List Nat) (ipv6 : Bool) : Option (List TPeer) :=
  let stride := if ipv6 then 18 else 6
  let b2 := b.take (b.length / stride * stride)
  parseCompactPeersV1Loop b2 stride ipv6 (b2.length / stride) 0 []

/-- Loop of the second `parseCompactPeers` variant (tracker.go:876):
IPv4 only, six bytes per peer, built with a fresh `&Peer{…}`. -/
def parseCompactPeersV2Loop (peerData : List Nat) : Nat → Nat → List TPeer → List TPeer
  | 0, _, acc => acc.reverse
  | count + 1, i, acc =>
    let offset := i * 6
    parseCompactPeersV2Loop peerData count (i + 1)
      (TPeer.mk ((peerData.drop offset).take 4)
        (be16 (peerData.getD (offset + 4) 0) (peerData.getD (offset + 5) 0)) :: acc)

/-- Second `parseCompactPeers` variant: rejects lengths that are not a
multiple of six, else one peer per 6-byte group. -/
def parseCompactPeersV2 (peerData : List Nat) : Except String (List TPeer) :=
  if peerData.length % 6 ≠ 0 then Except.error "invalid compact peer len"
  else Except.ok (parseCompactPeersV2Loop peerData (peerData.length / 6) 0 [])

/-- A peer session as the admission table sees it: only whether
`Stop` has been called matters here. -/
structure PeerSession where
  stopped : Bool
deriving DecidableEq

/-- `Manager.hasPeer`: membership in the admission table. -/
def hasPeer (t : List (String × PeerSession)) (addr : String) : Bool :=
  (t.find? (fun p => p.1 = addr)).isSome

/-- `Manager.admitPeer`: check-then-insert under the table lock;
returns the new table and whether the peer was admitted. -/
def admitPeer (t : List (String × PeerSession)) (addr : String) :
    List (String × PeerSession) × Bool :=
  if hasPeer t addr then (t, false)
  else (t ++ [(addr, PeerSession.mk false)], true)

/-- `Manager.removePeer`: look the address up and `Stop` the stored
session — the map entry itself is never deleted (there is no
`delete(m.peers, addr)`). -/
def removePeer (t : List (String × PeerSession)) (addr : String) :
    List (String × PeerSession) :=
  match t.find? (fun p => p.1 = addr) with
  | none => t
  | some _ => t.map (fun p => if p.1 = addr then (p.1, PeerSession.mk true) else p)

/-- The admission-table operations a manager performs over its
lifetime. -/
inductive MgrOp where
  | admitOp (addr : String)
  | remove (addr : String)

def mgrStep (t : List (String × PeerSession)) : MgrOp → List (String × PeerSession)
  | MgrOp.admitOp addr => (admitPeer t addr).1
  | MgrOp.remove addr => removePeer t addr

def mgrRun (t : List (String × PeerSession)) (ops : List MgrOp) :
    List (String × PeerSession) :=
  ops.foldl mgrStep t

/-- `New(n)`: `int((n + 7) / 8)` bytes, clamped at zero, all zero. -/
def bfNew (n : Int) : List Nat :=
  let size : Int := (n + 7).tdiv 8
  let size := if size < 0 then 0 else size
  List.replicate size.toNat 0

/-- `FromBytes` adopts a copy of the bytes. -/
def bfFromBytes (b : List Nat) : List Nat := b

/-- `HasBit`: false when the byte index is outside the storage, else
bit `7 - index%8` of byte `index/8`. -/
def bfHasBit (bf : List Nat) (index : Int) : Bool :=
  let byteIndex := index.tdiv 8
  let offset := index.tmod 8
  if byteIndex < 0 ∨ (bf.length : Int) ≤ byteIndex then false
  else decide (((bf.getD byteIndex.toNat 0) >>> (7 - offset).toNat) &&& 1 ≠ 0)

/-- `SetBit`: no-op outside the storage, else OR the mask in. -/
def bfSetBit (bf : List Nat) (index : Int) : List Nat :=
  let byteIndex := index.tdiv 8
  let offset := index.tmod 8
  if byteIndex < 0 ∨ (bf.length : Int) ≤ byteIndex then bf
  else bf.set byteIndex.toNat
    ((bf.getD byteIndex.toNat 0) ||| ((1 <<< (7 - offset).toNat) % 256))

/-- `ClearBit`: no-op outside the storage, else AND-NOT the mask
(complement taken within the byte). -/
def bfClearBit (bf : List Nat) (index : Int) : List Nat :=
  let byteIndex := index.tdiv 8
  let offset := index.tmod 8
  if byteIndex < 0 ∨ (bf.length : Int) ≤ byteIndex then bf
  else bf.set byteIndex.toNat
    ((bf.getD byteIndex.toNat 0) &&& (255 ^^^ ((1 <<< (7 - offset).toNat) % 256)))

/-- `bits.OnesCount8` for a byte. -/
def onesCount8 (b : Nat) : Nat :=
  ((List.range 8).filter (fun k => b.testBit k)).length

/-- `Count`: sum of per-byte popcounts. -/
def bfCount (bf : List Nat) : Nat := (bf.map onesCount8).sum

/-- `Len`. -/
def bfLen (bf : List Nat) : Nat := bf.length * 8

/-- One bitfield call; `HasBit` does not mutate. -/
inductive BFOp where
  | has (i : Int)
  | set (i : Int)
  | clear (i : Int)

def bfApply (bf : List Nat) : BFOp → List Nat
  | BFOp.has _ => bf
  | BFOp.set i => bfSetBit bf i
  | BFOp.clear i => bfClearBit bf i

def bfRun (bf : List Nat) (ops : List BFOp) : List Nat := ops.foldl bfApply bf

/-- `maxRetries` from the UDP tracker client. -/
def maxRetries : Nat := 8

/-- `baseBackoff = 15 * time.Second`, in nanoseconds (`time.Duration`). -/
def baseBackoff : Int := 15000000000

/-- `connectionIDTTL = 60 * time.Second`, in nanoseconds. -/
def connectionIDTTLdur : Int := 60000000000

/-- `backoffWindow(deadline, hasDeadline, n)` evaluated at clock reading `now`
(times as nanoseconds since the epoch; `time.Until(deadline) = deadline - now`).
Go computes `d := baseBackoff << n`; for the `n ≤ maxRetries` range this shift
cannot overflow int64, so it is plain multiplication by `2^n` here. -/
def backoffWindow (deadline : Int) (hasDeadline : Bool) (n : Nat) (now : Int) : Int :=
  let d := baseBackoff * 2 ^ n
  if !hasDeadline then d
  else
    let remain := deadline - now
    if remain ≤ 0 then 0
    else if remain < d then remain
    else d

/-- Outcome of `readAnnouncePacket` for one attempt: success, an
action/transaction-id mismatch error, or any other error (e.g. timeout). -/
inductive AnnOutcome where
  | ok
  | mismatch
  | fail
deriving DecidableEq

/-- Environment of one loop iteration: the clock reading, whether the connect
exchange (fresh `randU32` txn + `sendConnectPacket` + `readConnectPacket`)
succeeds and with which connection id, the `randU32` sample for the announce
packet, and how `readAnnouncePacket` ends. `randU32` itself is modelled as
always succeeding. -/
structure UdpEnv where
  now : Int
  connectOk : Bool
  connID : Nat
  annTxn : Nat
  outcome : AnnOutcome
deriving DecidableEq

/-- What `Announce` returns. -/
inductive UdpResult where
  | response (connID txn : Nat)
  | deadlineExceeded
  | exhausted
deriving DecidableEq

/-- Record of one loop iteration that passed the deadline check: its socket
timeout, whether it ran the connect exchange, the announce transaction id it
sent (none when the connect exchange failed), and whether it ended in an
action/txn mismatch. -/
structure UdpAttempt where
  timeout : Int
  didConnect : Bool
  txn : Option Nat
  mismatched : Bool
deriving DecidableEq

/-- `UDPTrackerClient.Announce` retry loop. Arguments after the environment
and deadline: loop counter `n`, remaining iterations, cached `connectionID`,
cached `connectionIDTTL` (the zero `time.Time` is 0). Mirrors tracker.go
lines 1108-1162: deadline check, conditional connect refresh
(`time.Now().After(ttl)`), announce send/read, and on mismatch
`connectionIDTTL = time.Time{}` before the next attempt. -/
def udpLoop (env : Nat → UdpEnv) (deadline : Int) (hasDeadline : Bool) :
    Nat → Nat → Nat → Int → UdpResult × List UdpAttempt
  | _, 0, _, _ => (UdpResult.exhausted, [])
  | n, rem + 1, connID, ttl =>
    let e := env n
    let timeout := backoffWindow deadline hasDeadline n e.now
    if timeout ≤ 0 then (UdpResult.deadlineExceeded, [])
    else if ttl < e.now then
      if e.connectOk then
        match e.outcome with
        | AnnOutcome.ok =>
          (UdpResult.response e.connID e.annTxn,
            [UdpAttempt.mk timeout true (some e.annTxn) false])
        | AnnOutcome.mismatch =>
          let p := udpLoop env deadline hasDeadline (n + 1) rem e.connID 0
          (p.1, UdpAttempt.mk timeout true (some e.annTxn) true :: p.2)
        | AnnOutcome.fail =>
          let p := udpLoop env deadline hasDeadline (n + 1) rem e.connID
            (e.now + connectionIDTTLdur)
          (p.1, UdpAttempt.mk timeout true (some e.annTxn) false :: p.2)
      else
        let p := udpLoop env deadline hasDeadline (n + 1) rem connID ttl
        (p.1, UdpAttempt.mk timeout true none false :: p.2)
    else
      match e.outcome with
      | AnnOutcome.ok =>
        (UdpResult.response connID e.annTxn,
          [UdpAttempt.mk timeout false (some e.annTxn) false])
      | AnnOutcome.mismatch =>
        let p := udpLoop env deadline hasDeadline (n + 1) rem connID 0
        (p.1, UdpAttempt.mk timeout false (some e.annTxn) true :: p.2)
      | AnnOutcome.fail =>
        let p := udpLoop env deadline hasDeadline (n + 1) rem connID ttl
        (p.1, UdpAttempt.mk timeout false (some e.annTxn) false :: p.2)

/-- Entry point: `for n := 0; n <= maxRetries; n++` runs `maxRetries + 1`
iterations, with zero-valued cached connection id and TTL. -/
def udpAnnounceRun (env : Nat → UdpEnv) (deadline : Int) (hasDeadline : Bool) :
    UdpResult × List UdpAttempt :=
  udpLoop env deadline hasDeadline 0 (maxRetries + 1) 0 0

/-- Default attempt record, for `List.getD` indexing. -/
def dummyAttempt : UdpAttempt := UdpAttempt.mk 0 false none false

theorem byteLt_irrefl : ∀ a, byteLt a a = false
  | [] => rfl
  | a :: as => by simp [byteLt, byteLt_irrefl as]

theorem byteLt_trans : ∀ a b c, byteLt a b = true → byteLt b c = true → byteLt a c = true
  | [], [], _ :: _, _, _ => rfl
  | [], _ :: _, _ :: _, _, _ => rfl
  | a :: as, b :: bs, c :: cs, hab, hbc => by
    simp only [byteLt, Bool.or_eq_true, Bool.and_eq_true, decide_eq_true_eq] at *
    rcases hab with hab | ⟨hab, hab2⟩ <;> rcases hbc with hbc | ⟨hbc, hbc2⟩
    · exact Or.inl (Nat.lt_trans hab hbc)
    · exact Or.inl (hbc ▸ hab)
    · exact Or.inl (hab ▸ hbc)
    · exact Or.inr ⟨hab.trans hbc, byteLt_trans as bs cs hab2 hbc2⟩

theorem byteLt_total : ∀ a b, a ≠ b → byteLt a b = true ∨ byteLt b a = true
  | [], [], h => absurd rfl h
  | [], _ :: _, _ => Or.inl rfl
  | _ :: _, [], _ => Or.inr rfl
  | a :: as, b :: bs, h => by
    simp only [byteLt, Bool.or_eq_true, Bool.and_eq_true, decide_eq_true_eq]
    rcases Nat.lt_trichotomy a b with hlt | heq | hgt
    · exact Or.inl (Or.inl hlt)
    · subst heq
      have : as ≠ bs := fun hc => h (hc ▸ rfl)
      rcases byteLt_total as bs this with h1 | h1
      · exact Or.inl (Or.inr ⟨rfl, h1⟩)
      · exact Or.inr (Or.inr ⟨rfl, h1⟩)
    · exact Or.inr (Or.inl hgt)

theorem byteLt_asymm {a b} (h : byteLt a b = true) : byteLt b a = false := by
  by_contra hc
  have hba : byteLt b a = true := by
    cases hres : byteLt b a
    · exact absurd hres hc
    · rfl
  have := byteLt_trans a b a h hba
  rw [byteLt_irrefl] at this
  exact Bool.false_ne_true this

theorem byteLt_ne {a b} (h : byteLt a b = true) : a ≠ b := by
  intro hc
  subst hc
  rw [byteLt_irrefl] at h
  exact Bool.false_ne_true h

/-- `digitsToNat` over a snoc. -/
theorem digitsToNat_append (xs : List Nat) (d : Nat) :
    digitsToNat (xs ++ [d]) = digitsToNat xs * 10 + (d - 48) := by
  simp [digitsToNat, List.foldl_append]

theorem natToAsciiAux_digits :
    ∀ fuel n, n < fuel → (natToAsciiAux fuel n).all isDigit = true := by
  intro fuel
  induction fuel with
  | zero => intro n h; omega
  | succ f ih =>
    intro n h
    by_cases h10 : n < 10
    · simp [natToAsciiAux, h10, isDigit]
      omega
    · have hdiv : n / 10 < f := by omega
      simp [natToAsciiAux, h10, List.all_append, ih _ hdiv, isDigit]
      all_goals omega

theorem natToAsciiAux_val :
    ∀ fuel n, n < fuel → digitsToNat (natToAsciiAux fuel n) = n := by
  intro fuel
  induction fuel with
  | zero => intro n h; omega
  | succ f ih =>
    intro n h
    by_cases h10 : n < 10
    · simp [natToAsciiAux, h10, digitsToNat]
    · have hdiv : n / 10 < f := by omega
      rw [natToAsciiAux, if_neg h10, digitsToNat_append, ih _ hdiv]
      omega

theorem natToAsciiAux_ne_nil : ∀ fuel n, 0 < fuel → natToAsciiAux fuel n ≠ [] := by
  intro fuel n h
  cases fuel with
  | zero => omega
  | succ f =>
    by_cases h10 : n < 10 <;> simp [natToAsciiAux, h10]

theorem natToAscii_digits (n : Nat) : (natToAscii n).all isDigit = true :=
  natToAsciiAux_digits (n + 1) n (Nat.lt_succ_self n)

theorem natToAscii_val (n : Nat) : digitsToNat (natToAscii n) = n :=
  natToAsciiAux_val (n + 1) n (Nat.lt_succ_self n)

theorem natToAscii_ne_nil (n : Nat) : natToAscii n ≠ [] :=
  natToAsciiAux_ne_nil (n + 1) n (Nat.succ_pos n)

theorem digit_mem_natToAscii {n c : Nat} (h : c ∈ natToAscii n) :
    48 ≤ c ∧ c ≤ 57 := by
  have := natToAscii_digits n
  rw [List.all_eq_true] at this
  have hc := this c h
  simp [isDigit] at hc
  exact hc

/-- `splitAtByte` recovers an explicitly delimited split when the
prefix avoids the delimiter. -/
theorem splitAtByte_of_not_mem {d : Nat} :
    ∀ (xs rest : List Nat), d ∉ xs →
      splitAtByte d (xs ++ d :: rest) = some (xs, rest) := by
  intro xs
  induction xs with
  | nil => intro rest _; simp [splitAtByte]
  | cons b t ih =>
    intro rest h
    have hbd : b ≠ d := fun hc => h (hc ▸ List.mem_cons_self b t)
    have ht : d ∉ t := fun hc => h (List.mem_cons_of_mem b hc)
    simp [splitAtByte, hbd, ih rest ht]

/-- `strconv.ParseInt` inverts decimal printing of a natural number in
the signed 64-bit range. -/
theorem parseInt64_natToAscii {n : Nat} (h : n ≤ 2 ^ 63 - 1) :
    parseInt64 (natToAscii n) = some (n : Int) := by
  rcases hne : natToAscii n with _ | ⟨c, rest⟩
  · exact absurd hne (natToAscii_ne_nil n)
  · have hc : 48 ≤ c ∧ c ≤ 57 := by
      apply digit_mem_natToAscii (n := n)
      rw [hne]; exact List.mem_cons_self c rest
    have hc45 : c ≠ 45 := by omega
    have hc43 : c ≠ 43 := by omega
    have hall : (c :: rest).all isDigit = true := by
      rw [← hne]; exact natToAscii_digits n
    have hval : digitsToNat (c :: rest) = n := by
      rw [← hne]; exact natToAscii_val n
    simp only [parseInt64]
    norm_num [hc45, hc43, hall]
    rw [hval]
    exact ⟨List.cons_ne_nil c rest, by omega, rfl⟩

/-- `strconv.ParseInt` inverts `strconv.FormatInt` on the int64 range. -/
theorem parseInt64_intToAscii {v : Int} (hlo : -(2 ^ 63) ≤ v) (hhi : v ≤ 2 ^ 63 - 1) :
    parseInt64 (intToAscii v) = some v := by
  by_cases hneg : v < 0
  · have hnat : (v.natAbs : Int) = -v := by omega
    rcases hne : natToAscii v.natAbs with _ | ⟨c, rest⟩
    · exact absurd hne (natToAscii_ne_nil _)
    · have hall : (c :: rest).all isDigit = true := by
        rw [← hne]; exact natToAscii_digits _
      have hval : digitsToNat (c :: rest) = v.natAbs := by
        rw [← hne]; exact natToAscii_val _
      have hrange : v.natAbs ≤ 2 ^ 63 := by omega
      simp only [intToAscii, if_pos hneg, hne, parseInt64]
      norm_num [hall, hval, hrange]
      refine ⟨by simp, by omega, ?_⟩
      rw [abs_of_neg hneg]
      ring
  · have htoNat : v.toNat ≤ 2 ^ 63 - 1 := by omega
    simp only [intToAscii, if_neg hneg, parseInt64_natToAscii htoNat]
    congr 1
    omega

/-- Decoding inverts `encodeString` (with the remainder preserved)
whenever the string length is int64-representable, as every Go string
is. -/
theorem decodeStringFrom_encodeStr {s : List Nat} (h : s.length ≤ 2 ^ 63 - 1)
    (rest : List Nat) :
    decodeStringFrom (encodeStr s ++ rest) = Except.ok (s, rest) := by
  have h58 : (58 : Nat) ∉ natToAscii s.length := by
    intro hmem
    have := digit_mem_natToAscii hmem
    omega
  have heq : encodeStr s ++ rest = natToAscii s.length ++ 58 :: (s ++ rest) := by
    simp [encodeStr]
  rw [heq]
  simp only [decodeStringFrom, splitAtByte_of_not_mem _ _ h58, parseInt64_natToAscii h]
  by_cases h0 : s.length = 0
  · have hs : s = [] := List.length_eq_zero.mp h0
    subst hs
    simp
  · have hpos : 0 < s.length := Nat.pos_of_ne_zero h0
    have hne0 : ¬ ((s.length : Int) = 0) := by omega
    have hneg : ¬ ((s.length : Int) < 0) := by omega
    have htoNat : ((s.length : Int)).toNat = s.length := Int.toNat_natCast s.length
    have hlen : ¬ (s ++ rest).length < s.length := by
      simp [List.length_append]
    simp only [hne0, hneg, htoNat, hlen, if_false, if_neg]
    simp [List.take_left, List.drop_left]

theorem keysSorted_tail : ∀ {a : List Nat} {l : List (List Nat)},
    keysSorted (a :: l) = true → keysSorted l = true := by
  intro a l h
  cases l with
  | nil => rfl
  | cons b t =>
    rw [keysSorted, Bool.and_eq_true] at h
    exact h.2

theorem keysSorted_head_lt : ∀ {a : List Nat} {l : List (List Nat)},
    keysSorted (a :: l) = true → ∀ b ∈ l, byteLt a b = true := by
  intro a l
  induction l generalizing a with
  | nil => intro _ b hb; cases hb
  | cons c t ih =>
    intro h b hb
    rw [keysSorted, Bool.and_eq_true] at h
    rcases List.mem_cons.mp hb with hb | hb
    · exact hb ▸ h.1
    · exact byteLt_trans a c b h.1 (ih h.2 b hb)

theorem keysSorted_mid : ∀ (xs : List (List Nat)) (k : List Nat) (ys : List (List Nat)),
    keysSorted (xs ++ k :: ys) = true → ∀ a ∈ xs, byteLt a k = true := by
  intro xs
  induction xs with
  | nil => intro k ys _ a ha; cases ha
  | cons x t ih =>
    intro k ys h a ha
    rcases List.mem_cons.mp ha with ha | ha
    · subst ha
      exact keysSorted_head_lt h k (by simp)
    · exact ih k ys (keysSorted_tail h) a ha

/-- Inserting a key larger than everything in the map appends it. -/
theorem mapInsert_append_gt : ∀ (acc : List (List Nat × BValue)) (k : List Nat) (v : BValue),
    (∀ p ∈ acc, byteLt p.1 k = true) → mapInsert acc k v = acc ++ [(k, v)] := by
  intro acc
  induction acc with
  | nil => intro k v _; rfl
  | cons p t ih =>
    intro k v h
    obtain ⟨k0, v0⟩ := p
    have hk0 : byteLt k0 k = true := h (k0, v0) (by simp)
    have h1 : byteLt k k0 = false := byteLt_asymm hk0
    have h2 : k ≠ k0 := fun hc => byteLt_ne hk0 hc.symm
    rw [mapInsert, h1]
    simp only [Bool.false_eq_true, if_false, h2]
    rw [ih k v (fun q hq => h q (List.mem_cons_of_mem _ hq))]
    simp

/-- Replaying a sorted pair list with `dict[key] = val` insertions
rebuilds it unchanged after the accumulator. -/
theorem insertAll_sorted : ∀ (d acc : List (List Nat × BValue)),
    keysSorted (acc.map Prod.fst ++ d.map Prod.fst) = true →
    insertAll acc d = acc ++ d := by
  intro d
  induction d with
  | nil => intro acc _; simp [insertAll]
  | cons p t ih =>
    intro acc h
    obtain ⟨k, v⟩ := p
    have hlt : ∀ q ∈ acc, byteLt q.1 k = true := by
      intro q hq
      exact keysSorted_mid (acc.map Prod.fst) k (t.map Prod.fst) h q.1
        (List.mem_map_of_mem Prod.fst hq)
    rw [insertAll, mapInsert_append_gt acc k v hlt]
    have hkeys : (acc ++ [(k, v)]).map Prod.fst ++ t.map Prod.fst =
        acc.map Prod.fst ++ (k :: t.map Prod.fst) := by
      simp
    rw [ih (acc ++ [(k, v)]) (by rw [hkeys]; simpa using h)]
    simp

theorem insertAll_nil_sorted {d : List (List Nat × BValue)}
    (h : keysSorted (d.map Prod.fst) = true) : insertAll [] d = d := by
  have := insertAll_sorted d [] (by simpa using h)
  simpa using this

theorem encodeStr_cons (s : List Nat) :
    ∃ c ds, encodeStr s = c :: ds ∧ 48 ≤ c ∧ c ≤ 57 := by
  rcases hne : natToAscii s.length with _ | ⟨c, ds⟩
  · exact absurd hne (natToAscii_ne_nil _)
  · have hc : 48 ≤ c ∧ c ≤ 57 := by
      apply digit_mem_natToAscii (n := s.length)
      rw [hne]; exact List.mem_cons_self c ds
    exact ⟨c, ds ++ 58 :: s, by simp [encodeStr, hne], hc.1, hc.2⟩

theorem mem_intToAscii_le {v : Int} {c : Nat} (h : c ∈ intToAscii v) : c ≤ 57 := by
  rw [intToAscii] at h
  by_cases hneg : v < 0
  · rw [if_pos hneg] at h
    rcases List.mem_cons.mp h with h1 | h1
    · omega
    · exact (digit_mem_natToAscii h1).2
  · rw [if_neg hneg] at h
    exact (digit_mem_natToAscii h).2

mutual

/-- Central bencode invariant: the streaming decoder inverts the
canonical encoder on every well-formed value, leaving the remainder of
the stream untouched, for any fuel of the form `extra + fuelB v`. -/
theorem decode_encodeVal : ∀ v, wfB v = true → ∀ extra rest,
    decodeVal (extra + fuelB v) (encodeVal v ++ rest) = Except.ok (v, rest)
  | BValue.str s, hwf, extra, rest => by
    have hs : s.length ≤ 2 ^ 63 - 1 := by
      simpa [wfB] using hwf
    obtain ⟨c, ds, hcons, hc1, hc2⟩ := encodeStr_cons s
    have hstream : encodeVal (BValue.str s) ++ rest = c :: (ds ++ rest) := by
      simp [encodeVal, hcons]
    have h105 : ¬ c = 105 := by omega
    have h108 : ¬ c = 108 := by omega
    have h100 : ¬ c = 100 := by omega
    have hback : c :: (ds ++ rest) = encodeStr s ++ rest := by
      simp [hcons]
    rw [hstream]
    show decodeVal (extra + 1) (c :: (ds ++ rest)) = _
    simp only [decodeVal, h105, h108, h100, if_false]
    rw [hback]
    simp only [decodeStringFrom_encodeStr hs]
  | BValue.int v, hwf, extra, rest => by
    have hv : -(2 ^ 63) ≤ v ∧ v ≤ 2 ^ 63 - 1 := by
      simpa [wfB] using hwf
    have hstream : encodeVal (BValue.int v) ++ rest = 105 :: (intToAscii v ++ 101 :: rest) := by
      simp [encodeVal]
    have h101 : (101 : Nat) ∉ intToAscii v := by
      intro hmem
      have := mem_intToAscii_le hmem
      omega
    rw [hstream]
    show decodeVal (extra + 1) _ = _
    simp only [decodeVal, if_pos, decodeIntegerFrom,
      splitAtByte_of_not_mem _ _ h101, parseInt64_intToAscii hv.1 hv.2]
  | BValue.list l, hwf, extra, rest => by
    have hl : wfItems l = true := by simpa [wfB] using hwf
    have hstream : encodeVal (BValue.list l) ++ rest = 108 :: (encodeItems l ++ 101 :: rest) := by
      simp [encodeVal]
    have hfuel : extra + fuelB (BValue.list l) = (extra + fuelItems l) + 1 := by
      simp [fuelB]; omega
    rw [hstream, hfuel]
    have h105 : ¬ (108 : Nat) = 105 := by omega
    simp only [decodeVal, h105, if_false, if_pos]
    have := decode_encodeItems l hl extra rest []
    simpa using this
  | BValue.dict d, hwf, extra, rest => by
    have hwf2 : wfPairs d = true ∧ keysSorted (d.map Prod.fst) = true := by
      simpa [wfB] using hwf
    have hstream : encodeVal (BValue.dict d) ++ rest = 100 :: (encodePairs d ++ 101 :: rest) := by
      simp [encodeVal]
    have hfuel : extra + fuelB (BValue.dict d) = (extra + fuelPairs d) + 1 := by
      simp [fuelB]; omega
    rw [hstream, hfuel]
    have h105 : ¬ (100 : Nat) = 105 := by omega
    have h108 : ¬ (100 : Nat) = 108 := by omega
    simp only [decodeVal, h105, h108, if_false, if_pos]
    have := decode_encodePairs d hwf2.1 extra rest []
    rw [insertAll_nil_sorted hwf2.2] at this
    exact this

theorem decode_encodeItems : ∀ l, wfItems l = true → ∀ extra rest acc,
    decodeListItems (extra + fuelItems l) (encodeItems l ++ 101 :: rest) acc =
      Except.ok (BValue.list (acc.reverse ++ l), rest)
  | [], _, extra, rest, acc => by
    show decodeListItems (extra + 1) (101 :: rest) acc = _
    simp [decodeListItems]
  | v :: t, hwf, extra, rest, acc => by
    have hv : wfB v = true ∧ wfItems t = true := by
      simpa [wfItems] using hwf
    obtain ⟨b, s, hcons, hb101⟩ : ∃ b s, encodeVal v = b :: s ∧ ¬ b = 101 := by
      cases v with
      | str s0 =>
        obtain ⟨c, ds, hc, h1, h2⟩ := encodeStr_cons s0
        exact ⟨c, ds, by simp [encodeVal, hc], by omega⟩
      | int n => exact ⟨105, intToAscii n ++ [101], by simp [encodeVal], by omega⟩
      | list l0 => exact ⟨108, encodeItems l0 ++ [101], by simp [encodeVal], by omega⟩
      | dict d0 => exact ⟨100, encodePairs d0 ++ [101], by simp [encodeVal], by omega⟩
    have hfuel : extra + fuelItems (v :: t) = (extra + fuelB v + fuelItems t) + 1 := by
      simp [fuelItems]; omega
    have hstream : encodeItems (v :: t) ++ 101 :: rest =
        b :: (s ++ (encodeItems t ++ 101 :: rest)) := by
      simp [encodeItems, hcons]
    have hval : decodeVal (extra + fuelB v + fuelItems t)
        (b :: (s ++ (encodeItems t ++ 101 :: rest))) =
        Except.ok (v, encodeItems t ++ 101 :: rest) := by
      have := decode_encodeVal v hv.1 (extra + fuelItems t) (encodeItems t ++ 101 :: rest)
      rw [hcons] at this
      rw [show extra + fuelItems t + fuelB v = extra + fuelB v + fuelItems t by omega] at this
      simpa using this
    have htail := decode_encodeItems t hv.2 (extra + fuelB v) rest (v :: acc)
    rw [show extra + fuelB v + fuelItems t = (extra + fuelB v) + fuelItems t from rfl] at hval
    rw [hfuel, hstream]
    rw [show extra + fuelB v + fuelItems t = (extra + fuelB v) + fuelItems t from rfl]
    simp only [decodeListItems, hb101, if_false, hval, htail]
    simp

theorem decode_encodePairs : ∀ d, wfPairs d = true → ∀ extra rest acc,
    decodeDictItems (extra + fuelPairs d) (encodePairs d ++ 101 :: rest) acc =
      Except.ok (BValue.dict (insertAll acc d), rest)
  | [], _, extra, rest, acc => by
    show decodeDictItems (extra + 1) (101 :: rest) acc = _
    simp [decodeDictItems, insertAll]
  | (k, v) :: t, hwf, extra, rest, acc => by
    have hkvt : k.length ≤ 2 ^ 63 - 1 ∧ wfB v = true ∧ wfPairs t = true := by
      have h2 : (k.length ≤ 2 ^ 63 - 1 ∧ wfB v = true) ∧ wfPairs t = true := by
        simpa [wfPairs] using hwf
      exact ⟨h2.1.1, h2.1.2, h2.2⟩
    obtain ⟨c, ds, hc, hc1, hc2⟩ := encodeStr_cons k
    have hfuel : extra + fuelPairs ((k, v) :: t) = (extra + fuelB v + fuelPairs t) + 1 := by
      simp [fuelPairs]; omega
    have hstream : encodePairs ((k, v) :: t) ++ 101 :: rest =
        c :: (ds ++ (encodeVal v ++ (encodePairs t ++ 101 :: rest))) := by
      simp [encodePairs, hc]
    have hc101 : ¬ c = 101 := by omega
    have hstr : decodeStringFrom (c :: (ds ++ (encodeVal v ++ (encodePairs t ++ 101 :: rest)))) =
        Except.ok (k, encodeVal v ++ (encodePairs t ++ 101 :: rest)) := by
      have hback : c :: (ds ++ (encodeVal v ++ (encodePairs t ++ 101 :: rest))) =
          encodeStr k ++ (encodeVal v ++ (encodePairs t ++ 101 :: rest)) := by
        simp [hc]
      rw [hback]
      exact decodeStringFrom_encodeStr hkvt.1 _
    have hval : decodeVal (extra + fuelB v + fuelPairs t)
        (encodeVal v ++ (encodePairs t ++ 101 :: rest)) =
        Except.ok (v, encodePairs t ++ 101 :: rest) := by
      have := decode_encodeVal v hkvt.2.1 (extra + fuelPairs t) (encodePairs t ++ 101 :: rest)
      rw [show extra + fuelPairs t + fuelB v = extra + fuelB v + fuelPairs t by omega] at this
      exact this
    have htail := decode_encodePairs t hkvt.2.2 (extra + fuelB v) rest (mapInsert acc k v)
    rw [hfuel, hstream]
    rw [show extra + fuelB v + fuelPairs t = (extra + fuelB v) + fuelPairs t from rfl] at hval
    simp only [decodeDictItems, hc101, if_false, hstr, hval, htail]
    rfl

end

mutual

/-- The fuel a value needs is dominated by its encoding length. -/
theorem fuelB_le : ∀ v, fuelB v + 1 ≤ 2 * (encodeVal v).length
  | BValue.str s => by
    rcases hne : natToAscii s.length with _ | ⟨c, ds⟩
    · exact absurd hne (natToAscii_ne_nil _)
    · simp [fuelB, encodeVal, encodeStr, hne]
  | BValue.int v => by
    simp [fuelB, encodeVal]
  | BValue.list l => by
    have := fuelItems_le l
    simp only [fuelB, encodeVal]
    simp
    omega
  | BValue.dict d => by
    have := fuelPairs_le d
    simp only [fuelB, encodeVal]
    simp
    omega

theorem fuelItems_le : ∀ l, fuelItems l ≤ 2 * (encodeItems l).length + 2
  | [] => by simp [fuelItems, encodeItems]
  | v :: t => by
    have h1 := fuelB_le v
    have h2 := fuelItems_le t
    simp only [fuelItems, encodeItems]
    simp
    omega

theorem fuelPairs_le : ∀ d, fuelPairs d ≤ 2 * (encodePairs d).length + 2
  | [] => by simp [fuelPairs, encodePairs]
  | (k, v) :: t => by
    have h1 := fuelB_le v
    have h2 := fuelPairs_le t
    simp only [fuelPairs, encodePairs]
    simp
    omega

end

theorem parseInt64_bounds {m : List Nat} {i : Int} (h : parseInt64 m = some i) :
    -(2 ^ 63) ≤ i ∧ i ≤ 2 ^ 63 - 1 := by
  rcases m with _ | ⟨c, rest⟩
  · simp [parseInt64] at h
  · simp only [parseInt64] at h
    split_ifs at h with h1 h2 h3 h4 h5 <;>
      first
        | exact Option.noConfusion h
        | (injection h with h6; omega)

theorem decodeStringFrom_len {s bytes r : List Nat}
    (h : decodeStringFrom s = Except.ok (bytes, r)) :
    bytes.length ≤ 2 ^ 63 - 1 := by
  simp only [decodeStringFrom] at h
  rcases hsp : splitAtByte 58 s with _ | ⟨szBytes, rest⟩ <;> rw [hsp] at h <;>
    simp only [] at h
  · exact absurd h (by simp)
  · rcases hpi : parseInt64 szBytes with _ | size <;> rw [hpi] at h <;>
      simp only [] at h
    · exact absurd h (by simp)
    · have hb := parseInt64_bounds hpi
      split_ifs at h with h0 hneg hlen
      all_goals
        first
          | exact Except.noConfusion h
          | (injection h with h6
             injection h6 with h7 h8
             rw [← h7]
             simp [List.length_take]
             try omega)

theorem wfItems_eq_all : ∀ l, wfItems l = l.all wfB
  | [] => rfl
  | v :: t => by rw [wfItems, wfItems_eq_all t, List.all_cons]

theorem wfItems_reverse {l : List BValue} (h : wfItems l = true) :
    wfItems l.reverse = true := by
  rw [wfItems_eq_all] at h ⊢
  simpa using h

theorem wfPairs_mapInsert : ∀ (acc : List (List Nat × BValue)) k v,
    wfPairs acc = true → k.length ≤ 2 ^ 63 - 1 → wfB v = true →
    wfPairs (mapInsert acc k v) = true := by
  intro acc
  induction acc with
  | nil =>
    intro k v _ hk hv
    simp [mapInsert, wfPairs, hv]
    omega
  | cons p t ih =>
    intro k v hw hk hv
    obtain ⟨k0, v0⟩ := p
    have hw2 : (k0.length ≤ 2 ^ 63 - 1 ∧ wfB v0 = true) ∧ wfPairs t = true := by
      simpa [wfPairs] using hw
    rw [mapInsert]
    by_cases h1 : byteLt k k0 = true
    · rw [if_pos h1]
      simp only [wfPairs, Bool.and_eq_true, decide_eq_true_eq]
      exact ⟨⟨hk, hv⟩, ⟨hw2.1.1, hw2.1.2⟩, hw2.2⟩
    · by_cases h2 : k = k0
      · rw [if_neg h1, if_pos h2]
        simp only [wfPairs, Bool.and_eq_true, decide_eq_true_eq]
        exact ⟨⟨hk, hv⟩, hw2.2⟩
      · rw [if_neg h1, if_neg h2]
        simp only [wfPairs, Bool.and_eq_true, decide_eq_true_eq]
        exact ⟨⟨hw2.1.1, hw2.1.2⟩, ih k v hw2.2 hk hv⟩

theorem keysSorted_cons_of_lt {x : List Nat} {l : List (List Nat)}
    (hl : keysSorted l = true) (h : ∀ y ∈ l, byteLt x y = true) :
    keysSorted (x :: l) = true := by
  cases l with
  | nil => rfl
  | cons a t =>
    rw [keysSorted, Bool.and_eq_true]
    exact ⟨h a (by simp), hl⟩

theorem mem_keys_mapInsert : ∀ (acc : List (List Nat × BValue)) k v y,
    y ∈ (mapInsert acc k v).map Prod.fst → y ∈ acc.map Prod.fst ∨ y = k := by
  intro acc
  induction acc with
  | nil =>
    intro k v y hy
    simp [mapInsert] at hy
    exact Or.inr hy
  | cons p t ih =>
    intro k v y hy
    obtain ⟨k0, v0⟩ := p
    rw [mapInsert] at hy
    by_cases h1 : byteLt k k0 = true
    · rw [if_pos h1] at hy
      simp at hy
      rcases hy with hy | hy | hy
      · exact Or.inr hy
      · exact Or.inl (by simp [hy])
      · exact Or.inl (by simp; exact Or.inr hy)
    · rw [if_neg h1] at hy
      by_cases h2 : k = k0
      · rw [if_pos h2] at hy
        simp at hy
        rcases hy with hy | hy
        · exact Or.inr hy
        · exact Or.inl (by simp; exact Or.inr hy)
      · rw [if_neg h2] at hy
        simp at hy
        rcases hy with hy | hy
        · exact Or.inl (by simp [hy])
        · rcases ih k v y (by simpa using hy) with h | h
          · exact Or.inl (by simp; right; simpa using h)
          · exact Or.inr h

theorem keysSorted_mapInsert : ∀ (acc : List (List Nat × BValue)) k v,
    keysSorted (acc.map Prod.fst) = true →
    keysSorted ((mapInsert acc k v).map Prod.fst) = true := by
  intro acc
  induction acc with
  | nil => intro k v _; rfl
  | cons p t ih =>
    intro k v hs
    obtain ⟨k0, v0⟩ := p
    have hs0 : keysSorted (t.map Prod.fst) = true := keysSorted_tail (by simpa using hs)
    rw [mapInsert]
    by_cases h1 : byteLt k k0 = true
    · rw [if_pos h1]
      simp only [List.map_cons]
      rw [keysSorted, Bool.and_eq_true]
      exact ⟨h1, by simpa using hs⟩
    · rw [if_neg h1]
      by_cases h2 : k = k0
      · rw [if_pos h2]
        subst h2
        simpa using hs
      · rw [if_neg h2]
        simp only [List.map_cons]
        apply keysSorted_cons_of_lt (ih k v hs0)
        intro y hy
        have hk0k : byteLt k0 k = true := by
          rcases byteLt_total k k0 h2 with h | h
          · exact absurd h h1
          · exact h
        rcases mem_keys_mapInsert t k v y hy with h | h
        · exact keysSorted_head_lt (by simpa using hs) y h
        · exact h ▸ hk0k

mutual

/-- Every value the decoder produces is well-formed: integers and
string lengths in int64 range, dictionaries canonical. -/
theorem decodeVal_wf : ∀ fuel s v r, decodeVal fuel s = Except.ok (v, r) → wfB v = true
  | 0, _, _, _, h => by simp [decodeVal] at h
  | _ + 1, [], _, _, h => by simp [decodeVal] at h
  | fuel + 1, b :: s, v, r, h => by
    by_cases h105 : b = 105
    · rw [decodeVal, if_pos h105] at h
      rw [decodeIntegerFrom] at h
      rcases hsp : splitAtByte 101 s with _ | ⟨body, rest⟩ <;> rw [hsp] at h <;>
        simp only [] at h
      · exact absurd h (by simp)
      · rcases hpi : parseInt64 body with _ | i <;> rw [hpi] at h <;>
          simp only [] at h
        · exact absurd h (by simp)
        · have hb := parseInt64_bounds hpi
          simp only [Except.ok.injEq, Prod.mk.injEq] at h
          rw [← h.1]
          simp only [wfB, Bool.and_eq_true, decide_eq_true_eq]
          omega
    · by_cases h108 : b = 108
      · rw [decodeVal, if_neg h105, if_pos h108] at h
        exact decodeListItems_wf fuel s [] v r rfl h
      · by_cases h100 : b = 100
        · rw [decodeVal, if_neg h105, if_neg h108, if_pos h100] at h
          exact decodeDictItems_wf fuel s [] v r rfl rfl h
        · rw [decodeVal, if_neg h105, if_neg h108, if_neg h100] at h
          rcases hds : decodeStringFrom (b :: s) with e | ⟨bytes, rest⟩ <;> rw [hds] at h <;>
            simp only [] at h
          · exact absurd h (by simp)
          · simp only [Except.ok.injEq, Prod.mk.injEq] at h
            rw [← h.1]
            simp only [wfB, decide_eq_true_eq]
            exact decodeStringFrom_len hds

theorem decodeListItems_wf : ∀ fuel s acc v r, wfItems acc = true →
    decodeListItems fuel s acc = Except.ok (v, r) → wfB v = true
  | 0, _, _, _, _, _, h => by simp [decodeListItems] at h
  | _ + 1, [], _, _, _, _, h => by simp [decodeListItems] at h
  | fuel + 1, b :: s, acc, v, r, hacc, h => by
    by_cases hb : b = 101
    · rw [decodeListItems, if_pos hb] at h
      simp only [Except.ok.injEq, Prod.mk.injEq] at h
      rw [← h.1]
      simp only [wfB]
      exact wfItems_reverse hacc
    · rw [decodeListItems, if_neg hb] at h
      rcases hd : decodeVal fuel (b :: s) with e | ⟨v0, rest⟩ <;> rw [hd] at h <;>
        simp only [] at h
      · exact absurd h (by simp)
      · have hv0 : wfB v0 = true := decodeVal_wf fuel (b :: s) v0 rest hd
        have hacc2 : wfItems (v0 :: acc) = true := by
          simp [wfItems, hv0, hacc]
        exact decodeListItems_wf fuel rest (v0 :: acc) v r hacc2 h

theorem decodeDictItems_wf : ∀ fuel s acc v r, wfPairs acc = true →
    keysSorted (acc.map Prod.fst) = true →
    decodeDictItems fuel s acc = Except.ok (v, r) → wfB v = true
  | 0, _, _, _, _, _, _, h => by simp [decodeDictItems] at h
  | _ + 1, [], _, _, _, _, _, h => by simp [decodeDictItems] at h
  | fuel + 1, b :: s, acc, v, r, hacc, hsort, h => by
    by_cases hb : b = 101
    · rw [decodeDictItems, if_pos hb] at h
      simp only [Except.ok.injEq, Prod.mk.injEq] at h
      rw [← h.1]
      simp [wfB, hacc, hsort]
    · rw [decodeDictItems, if_neg hb] at h
      rcases hds : decodeStringFrom (b :: s) with e | ⟨k, rest⟩ <;> rw [hds] at h <;>
        simp only [] at h
      · exact absurd h (by simp)
      · rcases hd : decodeVal fuel rest with e | ⟨v0, rest2⟩ <;> rw [hd] at h <;>
          simp only [] at h
        · exact absurd h (by simp)
        · have hk := decodeStringFrom_len hds
          have hv0 : wfB v0 = true := decodeVal_wf fuel rest v0 rest2 hd
          exact decodeDictItems_wf fuel rest2 (mapInsert acc k v0) v r
            (wfPairs_mapInsert acc k v0 hacc hk hv0)
            (keysSorted_mapInsert acc k v0 hsort) h

end

/-- Decoder output from a full `Decode` call is well-formed. -/
theorem decodeTop_wf {B : List Nat} {v : BValue} {r : List Nat}
    (h : decodeTop B = Except.ok (v, r)) : wfB v = true :=
  decodeVal_wf _ B v r h

/-- Full `Decode` of the canonical encoding of a well-formed value
yields the value back with nothing left unread. -/
theorem decodeTop_encodeVal {v : BValue} (hwf : wfB v = true) :
    decodeTop (encodeVal v) = Except.ok (v, []) := by
  have hb := fuelB_le v
  have hfuel : 2 * (encodeVal v).length + 2 =
      (2 * (encodeVal v).length + 2 - fuelB v) + fuelB v := by omega
  rw [decodeTop, hfuel]
  have := decode_encodeVal v hwf (2 * (encodeVal v).length + 2 - fuelB v) []
  simpa using this

/-! ## Metainfo parser (`internal/torrent/metainfo.go`) -/

/-- Whenever `parseInfoDict` succeeds, the `Hash` field it stores is
exactly `computeInfoHash` of the decoded "info" dictionary. -/
theorem parseInfoDict_hash {sha : List Nat → List Nat} {data : List (List Nat × BValue)}
    {info : MInfo} {ts : Nat} (h : parseInfoDict sha data = Except.ok (info, ts)) :
    ∃ raw, lookupKey data kInfo = some (BValue.dict raw) ∧
      info.hash = computeInfoHash sha raw := by
  rw [parseInfoDict] at h
  rcases hlook : lookupKey data kInfo with _ | iv <;> rw [hlook] at h <;>
    simp only [] at h
  · exact absurd h (by simp)
  · cases iv with
    | str s => simp only [] at h; exact absurd h (by simp)
    | int v => simp only [] at h; exact absurd h (by simp)
    | list l => simp only [] at h; exact absurd h (by simp)
    | dict raw =>
      simp only [] at h
      rcases hpl : parsePieceLength raw with e | pl <;> rw [hpl] at h <;>
        simp only [] at h
      · exact absurd h (by simp)
      · rcases hpc : parsePieces raw with e | pcs <;> rw [hpc] at h <;>
          simp only [] at h
        · exact absurd h (by simp)
        · rcases hfs : parseFilesSection raw with e | ⟨files, tsz⟩ <;> rw [hfs] at h <;>
            simp only [] at h
          · exact absurd h (by simp)
          · injection h with h2
            injection h2 with h3 h4
            refine ⟨raw, rfl, ?_⟩
            rw [← h3]

/-- C1: for every byte input accepted by the metainfo parser, the Hash
field of the resulting Info equals the SHA-1 digest of the canonical
bencode re-encoding of the decoded "info" dictionary value (the SHA-1
function itself is the abstract parameter `sha`). -/
theorem infoHash_is_sha1_of_canonical_reencoding
    (sha : List Nat → List Nat) (input : List Nat) (m : Metainfo)
    (h : parseMetainfo sha input = Except.ok m) :
    ∃ data rest infoPairs,
      decodeTop input = Except.ok (BValue.dict data, rest) ∧
      lookupKey data kInfo = some (BValue.dict infoPairs) ∧
      m.info.hash = sha (encodeVal (BValue.dict infoPairs)) := by
  rw [parseMetainfo] at h
  rcases hdec : decodeTop input with e | ⟨v, rest⟩ <;> rw [hdec] at h <;>
    (try simp only [] at h)
  · exact absurd h (by simp)
  · cases v with
    | str s => simp only [] at h; exact absurd h (by simp)
    | int n => simp only [] at h; exact absurd h (by simp)
    | list l => simp only [] at h; exact absurd h (by simp)
    | dict data =>
      simp only [] at h
      rcases hpid : parseInfoDict sha data with e | ⟨info, ts⟩ <;> rw [hpid] at h <;>
        simp only [] at h
      · exact absurd h (by simp)
      · obtain ⟨raw, hlook, hhash⟩ := parseInfoDict_hash hpid
        injection h with h2
        refine ⟨data, rest, raw, rfl, hlook, ?_⟩
        rw [← h2]
        exact hhash

/-- Witness for C1 on a concrete minimal single-file torrent. -/
theorem infoHash_is_sha1_of_canonical_reencoding_witness :
    ∃ data rest infoPairs,
      decodeTop tcBytes = Except.ok (BValue.dict data, rest) ∧
      lookupKey data kInfo = some (BValue.dict infoPairs) ∧
      tcMeta.info.hash = tcSha (encodeVal (BValue.dict infoPairs)) :=
  infoHash_is_sha1_of_canonical_reencoding tcSha tcBytes tcMeta (by rfl)

/-- C2: for every conformant bencoded input, re-decoding the canonical
encoding of the decoded value gives the same value back with nothing
unread (semantic round trip), and when the input was itself produced by
the canonical encoder the re-encoding is byte-identical to the input. -/
theorem bencode_semantic_roundtrip (B : List Nat) (v : BValue) (rest : List Nat)
    (h : decodeTop B = Except.ok (v, rest)) :
    decodeTop (encodeVal v) = Except.ok (v, []) ∧
    (∀ u, wfB u = true → B = encodeVal u → encodeVal v = B) := by
  have hwf := decodeTop_wf h
  refine ⟨decodeTop_encodeVal hwf, ?_⟩
  intro u hu hB
  subst hB
  rw [decodeTop_encodeVal hu] at h
  injection h with h2
  injection h2 with h3 h4
  rw [h3]

/-- Witness for C2 on the literal `d3:bar4:spam3:fooi42ee`. -/
theorem bencode_semantic_roundtrip_witness :
    decodeTop (encodeVal rtVal) = Except.ok (rtVal, []) ∧
    (∀ u, wfB u = true → rtBytes = encodeVal u → encodeVal rtVal = rtBytes) :=
  bencode_semantic_roundtrip rtBytes rtVal [] (by rfl)

/-- C6 refutation: the decoder accepts `i-0e` (yielding 0) and the
leading-zero mantissa `i007e` (yielding 7), both of which the claim
says must be rejected. -/
theorem integer_token_accepts_minus_zero :
    decodeTop [105, 45, 48, 101] = Except.ok (BValue.int 0, []) ∧
    decodeTop [105, 48, 48, 55, 101] = Except.ok (BValue.int 7, []) :=
  ⟨rfl, rfl⟩

/-- C6 (amended): decoding the integer token `i<m>e` follows Go
`strconv.ParseInt(m, 10, 64)`: it fails iff the mantissa, after one
optional leading `+`/`-` sign, is empty, contains a non-digit, or
overflows int64; leading zeros and `-0` are accepted, anything else
parses as the signed decimal value. -/
theorem integer_token_parseInt_semantics (m rest : List Nat) (hm : (101 : Nat) ∉ m) :
    decodeTop (105 :: (m ++ 101 :: rest)) =
      (match parseInt64 m with
        | none => Except.error "bencode: invalid integer"
        | some v => Except.ok (BValue.int v, rest)) ∧
    parseInt64 m =
      (if mantissaDigits m ≠ [] ∧ (mantissaDigits m).all isDigit = true ∧
          (if mantissaNeg m then digitsToNat (mantissaDigits m) ≤ 2 ^ 63
           else digitsToNat (mantissaDigits m) ≤ 2 ^ 63 - 1)
       then some (if mantissaNeg m then -(digitsToNat (mantissaDigits m) : Int)
                  else (digitsToNat (mantissaDigits m) : Int))
       else none) := by
  constructor
  · have hfuel : 2 * (105 :: (m ++ 101 :: rest)).length + 2 =
        (2 * (105 :: (m ++ 101 :: rest)).length + 1) + 1 := by omega
    rw [decodeTop, hfuel]
    simp only [decodeVal, if_pos, decodeIntegerFrom, splitAtByte_of_not_mem _ _ hm]
  · rcases m with _ | ⟨c, rest2⟩
    · simp [parseInt64, mantissaDigits]
    · by_cases h45 : c = 45
      · subst h45
        simp only [parseInt64, mantissaDigits, mantissaNeg]
        simp only [decide_eq_true_eq, Bool.or_eq_true, or_self, if_false,
          List.cons_ne_nil, not_false_iff, true_and, ne_eq]
        rcases rest2 with _ | ⟨d, r⟩
        · simp
        · by_cases hall : (d :: r).all isDigit = true
          · simp [hall, -List.all_eq_true]
          · have hf : (!(d :: r).all isDigit) = true := by
              simp [Bool.eq_false_iff.mpr hall]
            simp [hf, hall, -List.all_eq_true]
      · by_cases h43 : c = 43
        · subst h43
          simp only [parseInt64, mantissaDigits, mantissaNeg]
          simp only [decide_eq_true_eq, Bool.or_eq_true, or_self, if_false,
            List.cons_ne_nil, not_false_iff, true_and, ne_eq]
          rcases rest2 with _ | ⟨d, r⟩
          · simp
          · by_cases hall : (d :: r).all isDigit = true
            · simp [hall, -List.all_eq_true]
            · have hf : (!(d :: r).all isDigit) = true := by
                simp [Bool.eq_false_iff.mpr hall]
              simp [hf, hall, -List.all_eq_true]
        · simp only [parseInt64, mantissaDigits, mantissaNeg, h45, h43]
          simp only [decide_eq_true_eq, Bool.or_eq_true, or_self, if_false,
            List.cons_ne_nil, not_false_iff, true_and, ne_eq]
          by_cases hall : (c :: rest2).all isDigit = true
          · simp [hall, -List.all_eq_true]
          · have hf : (!(c :: rest2).all isDigit) = true := by
              simp [Bool.eq_false_iff.mpr hall]
            simp [hf, hall, -List.all_eq_true]

theorem annTierLoop_eq_foldl : ∀ (ss : List (List Nat)) (urls : List (List Nat)),
    annTierLoop (ss.map BValue.str) urls =
      (ss.filter (fun s => s ≠ [])).foldl
        (fun acc s => if acc.contains s then acc else acc ++ [s]) urls := by
  intro ss
  induction ss with
  | nil => intro urls; rfl
  | cons s t ih =>
    intro urls
    rw [List.map_cons]
    simp only [annTierLoop]
    by_cases hs : s = []
    · subst hs
      rw [if_pos rfl, List.filter_cons]
      simp [ih]
    · rw [if_neg hs, List.filter_cons,
        if_pos (show decide (s ≠ []) = true by simp [hs]), List.foldl_cons]
      by_cases hc : urls.contains s = true
      · rw [if_pos hc, if_pos hc, ih]
      · rw [if_neg hc, if_neg hc, ih]

theorem annTiersLoop_eq_foldl : ∀ (tiers : List (List (List Nat))) (urls : List (List Nat)),
    annTiersLoop (tiers.map (fun t => BValue.list (t.map BValue.str))) urls =
      (tiers.flatten.filter (fun s => s ≠ [])).foldl
        (fun acc s => if acc.contains s then acc else acc ++ [s]) urls := by
  intro tiers
  induction tiers with
  | nil => intro urls; rfl
  | cons t rest ih =>
    intro urls
    rw [List.map_cons, annTiersLoop, annTierLoop_eq_foldl, ih]
    rw [List.flatten_cons, List.filter_append, List.foldl_append]

/-- C7: when "announce-list" holds tiers of URL strings, the parsed
list is the flattening of the tiers in order with empty strings and
already-seen URLs dropped, and the single "announce" string is
consulted only when that flattening is empty; the spec example
`[[t1a, t1b], [t2a, t1a]]` parses to `[t1a, t1b, t2a]`. -/
theorem announce_list_flatten_dedupe
    (data : List (List Nat × BValue)) (tiers : List (List (List Nat)))
    (h : lookupKey data kAnnounceList =
      some (BValue.list (tiers.map (fun t => BValue.list (t.map BValue.str))))) :
    parseAnnounceURLs data =
      (if keepFirsts (tiers.flatten.filter (fun s => s ≠ [])) = [] then
        (match lookupKey data kAnnounce with
         | some (BValue.str a) => if a = [] then [] else [a]
         | _ => [])
       else keepFirsts (tiers.flatten.filter (fun s => s ≠ []))) ∧
    parseAnnounceURLs
      [(kAnnounceList, BValue.list
        [BValue.list [BValue.str [116, 49, 47, 97], BValue.str [116, 49, 47, 98]],
         BValue.list [BValue.str [116, 50, 47, 97], BValue.str [116, 49, 47, 97]]])] =
      [[116, 49, 47, 97], [116, 49, 47, 98], [116, 50, 47, 97]] := by
  constructor
  · rw [parseAnnounceURLs, h]
    simp only []
    rw [annTiersLoop_eq_foldl]
    rfl
  · rfl

/-- Witness for C7 on the spec example tiers. -/
theorem announce_list_flatten_dedupe_witness :
    parseAnnounceURLs
      [(kAnnounceList, BValue.list
        [BValue.list [BValue.str [116, 49, 47, 97], BValue.str [116, 49, 47, 98]],
         BValue.list [BValue.str [116, 50, 47, 97], BValue.str [116, 49, 47, 97]]])] =
      (if keepFirsts (([[ [116, 49, 47, 97], [116, 49, 47, 98]],
          [[116, 50, 47, 97], [116, 49, 47, 97]]] : List (List (List Nat))).flatten.filter
            (fun s => s ≠ [])) = [] then
        (match lookupKey [(kAnnounceList, BValue.list
          [BValue.list [BValue.str [116, 49, 47, 97], BValue.str [116, 49, 47, 98]],
           BValue.list [BValue.str [116, 50, 47, 97], BValue.str [116, 49, 47, 97]]])]
            kAnnounce with
         | some (BValue.str a) => if a = [] then [] else [a]
         | _ => [])
       else keepFirsts (([[ [116, 49, 47, 97], [116, 49, 47, 98]],
          [[116, 50, 47, 97], [116, 49, 47, 97]]] : List (List (List Nat))).flatten.filter
            (fun s => s ≠ []))) :=
  (announce_list_flatten_dedupe _ _ (by rfl)).1

/-- Witness for C6 on the token `i42e` with trailing bytes. -/
theorem integer_token_parseInt_semantics_witness :
    decodeTop (105 :: ([52, 50] ++ 101 :: [88])) =
      (match parseInt64 [52, 50] with
        | none => Except.error "bencode: invalid integer"
        | some v => Except.ok (BValue.int v, [88])) ∧
    parseInt64 [52, 50] =
      (if mantissaDigits [52, 50] ≠ [] ∧ (mantissaDigits [52, 50]).all isDigit = true ∧
          (if mantissaNeg [52, 50] then digitsToNat (mantissaDigits [52, 50]) ≤ 2 ^ 63
           else digitsToNat (mantissaDigits [52, 50]) ≤ 2 ^ 63 - 1)
       then some (if mantissaNeg [52, 50] then -(digitsToNat (mantissaDigits [52, 50]) : Int)
                  else (digitsToNat (mantissaDigits [52, 50]) : Int))
       else none) :=
  integer_token_parseInt_semantics [52, 50] [88] (by decide)

/-! ## Peer handshake (`Handshake.Perform` / `readHanshake`) -/

/-- C3 refutation: a well-formed reply carrying the local info-hash
but a different (perfectly legitimate) remote peer id makes `Perform`
fail — the peer-id check runs unconditionally against the local id,
with no pinning configuration. -/
theorem perform_rejects_foreign_peer_id :
    performHandshake (newHandshake c3IH c3PID) c3Reply =
      Except.error "handshake: peer id mismatch" := by
  rfl

/-- C3 (amended): `Perform` succeeds iff the reply is well-formed
(nonzero pstrlen followed by at least `48+pstrlen` bytes), carries the
local info-hash, AND echoes the local handshake peer id; zero pstrlen,
a short read, an info-hash mismatch, or a peer-id mismatch each fail. -/
theorem perform_succeeds_iff (h : HandshakeS) (reply : List Nat) :
    performHandshake h reply = Except.ok () ↔
      ∃ pstrlen rest, reply = pstrlen :: rest ∧ pstrlen ≠ 0 ∧
        48 + pstrlen ≤ rest.length ∧
        ((rest.take (48 + pstrlen)).drop (pstrlen + 8)).take 20 = h.infoHash ∧
        (rest.take (48 + pstrlen)).drop (pstrlen + 28) = h.peerID := by
  constructor
  · intro hok
    rcases reply with _ | ⟨pstrlen, rest⟩
    · exact absurd hok (by simp [performHandshake, readHanshake])
    · rw [performHandshake, readHanshake] at hok
      by_cases h0 : pstrlen = 0
      · rw [if_pos h0] at hok
        exact absurd hok (by simp)
      · rw [if_neg h0] at hok
        by_cases hlen : rest.length < 48 + pstrlen
        · rw [if_pos hlen] at hok
          exact absurd hok (by simp)
        · rw [if_neg hlen] at hok
          simp only [] at hok
          by_cases hih : h.infoHash ≠ ((rest.take (48 + pstrlen)).drop (pstrlen + 8)).take 20
          · rw [if_pos hih] at hok
            exact absurd hok (by simp)
          · rw [if_neg hih] at hok
            by_cases hpid : h.peerID ≠ (rest.take (48 + pstrlen)).drop (pstrlen + 28)
            · rw [if_pos hpid] at hok
              exact absurd hok (by simp)
            · push_neg at hih hpid
              exact ⟨pstrlen, rest, rfl, h0, by omega, hih.symm, hpid.symm⟩
  · rintro ⟨pstrlen, rest, hre, h0, hlen, hih, hpid⟩
    subst hre
    rw [performHandshake, readHanshake, if_neg h0, if_neg (by omega)]
    simp only []
    rw [if_neg (by rw [hih]; simp), if_neg (by rw [hpid]; simp)]

/-- Witness for C3 (amended) on a concrete successful exchange. -/
theorem perform_succeeds_iff_witness :
    performHandshake (newHandshake c3IH c3PID) c3GoodReply = Except.ok () := by
  apply (perform_succeeds_iff (newHandshake c3IH c3PID) c3GoodReply).mpr
  refine ⟨19, pstrStandard ++ List.replicate 8 0 ++ c3IH ++ c3PID, by rfl, by decide, by decide, ?_, ?_⟩
  · rfl
  · rfl

/-! ## HTTP tracker compact peer parsing (`parseCompactPeers`) -/

/-- C4: on the single compact group `1.2.3.4:6969` the first variant
faults (nil `*Peer` dereference) instead of returning the peer, while
the second variant returns exactly the peer the claim describes; the
first variant only survives on an empty peer list. -/
theorem compact_peers_nil_pointer_fault :
    parseCompactPeersV1 [1, 2, 3, 4, 27, 57] false = none ∧
    parseCompactPeersV2 [1, 2, 3, 4, 27, 57] =
      Except.ok [TPeer.mk [1, 2, 3, 4] 6969] ∧
    parseCompactPeersV1 [] false = some [] :=
  ⟨rfl, rfl, rfl⟩

/-! ## Peer manager admission table (`internal/peer/manager.go`) -/

theorem removePeer_keys (t : List (String × PeerSession)) (addr : String) :
    (removePeer t addr).map Prod.fst = t.map Prod.fst := by
  rcases hf : t.find? (fun p => p.1 = addr) with _ | p
  · rw [removePeer, hf]
  · rw [removePeer, hf]
    simp only []
    rw [List.map_map]
    apply List.map_congr_left
    intro q hq
    by_cases hqa : q.1 = addr
    · simp [hqa]
    · simp [hqa]

theorem hasPeer_iff_mem (t : List (String × PeerSession)) (addr : String) :
    hasPeer t addr = true ↔ addr ∈ t.map Prod.fst := by
  induction t with
  | nil => simp [hasPeer]
  | cons p rest ih =>
    by_cases hp : p.1 = addr
    · simp [hasPeer, List.find?_cons, hp]
    · rw [hasPeer, List.find?_cons]
      have hd : (decide (p.1 = addr)) = false := by simp [hp]
      rw [hd]
      rw [hasPeer] at ih
      constructor
      · intro hs
        simp [ih.mp hs]
      · intro hmem
        rw [List.map_cons] at hmem
        rcases List.mem_cons.mp hmem with h1 | h1
        · exact absurd h1.symm hp
        · exact ih.mpr h1

theorem mgrStep_preserves (t : List (String × PeerSession)) (op : MgrOp) (addr : String)
    (h : hasPeer t addr = true) : hasPeer (mgrStep t op) addr = true := by
  cases op with
  | admitOp a =>
    rw [mgrStep, admitPeer]
    by_cases ha : hasPeer t a = true
    · rw [if_pos ha]
      exact h
    · rw [if_neg ha]
      rw [hasPeer_iff_mem] at h ⊢
      simp only [List.map_append]
      exact List.mem_append_left _ h
  | remove a =>
    rw [mgrStep]
    rw [hasPeer_iff_mem] at h ⊢
    rw [removePeer_keys]
    exact h

/-- C10: an admitted address is never deleted — `removePeer` stops the
session but keeps the key, so after any sequence of admissions and
removals the address is still present and a renewed `admitPeer` for it
fails, leaving the table unchanged. -/
theorem admitted_addresses_never_deleted
    (t : List (String × PeerSession)) (ops : List MgrOp) (addr : String)
    (h : hasPeer t addr = true) :
    (removePeer t addr).map Prod.fst = t.map Prod.fst ∧
    hasPeer (mgrRun t ops) addr = true ∧
    admitPeer (mgrRun t ops) addr = (mgrRun t ops, false) := by
  have hrun : hasPeer (mgrRun t ops) addr = true := by
    induction ops generalizing t with
    | nil => exact h
    | cons op rest ih =>
      rw [mgrRun, List.foldl_cons]
      exact ih (mgrStep t op) (mgrStep_preserves t op addr h)
  refine ⟨removePeer_keys t addr, hrun, ?_⟩
  rw [admitPeer, if_pos hrun]

/-- Witness for C10: a table holding one peer, which is removed and
then re-offered. -/
theorem admitted_addresses_never_deleted_witness :
    (removePeer [("1.2.3.4:5555", PeerSession.mk false)] "1.2.3.4:5555").map Prod.fst =
      [("1.2.3.4:5555", PeerSession.mk false)].map Prod.fst ∧
    hasPeer (mgrRun [("1.2.3.4:5555", PeerSession.mk false)]
      [MgrOp.remove "1.2.3.4:5555", MgrOp.admitOp "1.2.3.4:5555"]) "1.2.3.4:5555" = true ∧
    admitPeer (mgrRun [("1.2.3.4:5555", PeerSession.mk false)]
      [MgrOp.remove "1.2.3.4:5555", MgrOp.admitOp "1.2.3.4:5555"]) "1.2.3.4:5555" =
      (mgrRun [("1.2.3.4:5555", PeerSession.mk false)]
        [MgrOp.remove "1.2.3.4:5555", MgrOp.admitOp "1.2.3.4:5555"], false) :=
  admitted_addresses_never_deleted [("1.2.3.4:5555", PeerSession.mk false)]
    [MgrOp.remove "1.2.3.4:5555", MgrOp.admitOp "1.2.3.4:5555"] "1.2.3.4:5555" (by decide)

/-! ## Bitfield (`internal/bitfield`, src/unnamed/part_004)

Indices are `Int` (Go `int` with truncated division and remainder,
`Int.tdiv` / `Int.tmod`); bytes are `Nat < 256`, and the Go `byte`
shift `byte(1) << s` is `(1 <<< s) % 256`. -/

theorem getD_set_self (l : List Nat) : ∀ (k x : Nat), k < l.length →
    (l.set k x).getD k 0 = x := by
  induction l with
  | nil => intro k x h; simp at h
  | cons a t ih =>
    intro k x h
    cases k with
    | zero => rfl
    | succ k => exact ih k x (by simpa using h)

theorem getD_set_other (l : List Nat) : ∀ (k j x : Nat), k ≠ j →
    (l.set k x).getD j 0 = l.getD j 0 := by
  induction l with
  | nil => intro k j x _; simp
  | cons a t ih =>
    intro k j x h
    cases k with
    | zero =>
      cases j with
      | zero => exact absurd rfl h
      | succ j => rfl
    | succ k =>
      cases j with
      | zero => rfl
      | succ j => exact ih k j x (fun hc => h (hc ▸ rfl))

theorem set_getD_self (l : List Nat) : ∀ k : Nat, l.set k (l.getD k 0) = l := by
  induction l with
  | nil => intro k; rfl
  | cons a t ih =>
    intro k
    cases k with
    | zero => rfl
    | succ k =>
      show a :: t.set k (t.getD k 0) = a :: t
      rw [ih k]

theorem mem_set_cases (l : List Nat) : ∀ (k x b : Nat), b ∈ l.set k x →
    b ∈ l ∨ b = x := by
  induction l with
  | nil => intro k x b h; simp at h
  | cons a t ih =>
    intro k x b h
    cases k with
    | zero =>
      rcases List.mem_cons.mp h with h1 | h1
      · exact Or.inr h1
      · exact Or.inl (List.mem_cons_of_mem a h1)
    | succ k =>
      rcases List.mem_cons.mp h with h1 | h1
      · exact Or.inl (h1 ▸ List.mem_cons_self a t)
      · rcases ih k x b h1 with h2 | h2
        · exact Or.inl (List.mem_cons_of_mem a h2)
        · exact Or.inr h2

theorem getD_mem (l : List Nat) : ∀ k : Nat, k < l.length → l.getD k 0 ∈ l := by
  induction l with
  | nil => intro k h; simp at h
  | cons a t ih =>
    intro k h
    cases k with
    | zero => exact List.mem_cons_self a t
    | succ k => exact List.mem_cons_of_mem a (ih k (by simpa using h))

theorem hasBitExpr_eq_testBit (x s : Nat) :
    decide ((x >>> s) &&& 1 ≠ 0) = x.testBit s := by
  simp [Nat.testBit, Nat.and_comm]

theorem mask_eq_pow {s : Nat} (h : s ≤ 7) : (1 <<< s) % 256 = 2 ^ s := by
  rw [Nat.shiftLeft_eq, one_mul]
  exact Nat.mod_eq_of_lt (lt_of_le_of_lt
    (Nat.pow_le_pow_right (by norm_num) h) (by norm_num))

theorem mask_eq_zero {s : Nat} (h : 8 ≤ s) : (1 <<< s) % 256 = 0 := by
  rw [Nat.shiftLeft_eq, one_mul]
  have hsplit : (2 : Nat) ^ s = 256 * 2 ^ (s - 8) := by
    have h256 : (256 : Nat) = 2 ^ 8 := by norm_num
    rw [h256, ← pow_add]
    congr 1
    omega
  rw [hsplit, Nat.mul_mod_right]

theorem int_tdiv8_ofNat (m : Nat) : ((m : Int)).tdiv 8 = ((m / 8 : Nat) : Int) := rfl

theorem int_tmod8_ofNat (m : Nat) : ((m : Int)).tmod 8 = ((m % 8 : Nat) : Int) := rfl

theorem int_tdiv8_negSucc (m : Nat) :
    (Int.negSucc m).tdiv 8 = -(((m + 1) / 8 : Nat) : Int) := rfl

theorem int_tmod8_negSucc (m : Nat) :
    (Int.negSucc m).tmod 8 = -(((m + 1) % 8 : Nat) : Int) := rfl

theorem byte_and_255 (n : Nat) : n &&& 255 = n % 256 := by
  have h : (255 : Nat) = 2 ^ 8 - 1 := by norm_num
  rw [h, Nat.and_pow_two_sub_one_eq_mod]

theorem bfSetBit_in_range (bf : List Nat) (m : Nat) (h : m < 8 * bf.length) :
    bfSetBit bf (m : Int) =
      bf.set (m / 8) ((bf.getD (m / 8) 0) ||| 2 ^ (7 - m % 8)) := by
  simp only [bfSetBit, int_tdiv8_ofNat, int_tmod8_ofNat]
  rw [if_neg (by omega : ¬(((m / 8 : Nat) : Int) < 0 ∨
    (bf.length : Int) ≤ ((m / 8 : Nat) : Int)))]
  have h1 : ((m / 8 : Nat) : Int).toNat = m / 8 := by omega
  have h2 : ((7 : Int) - ((m % 8 : Nat) : Int)).toNat = 7 - m % 8 := by omega
  rw [h1, h2, mask_eq_pow (by omega)]

theorem bfClearBit_in_range (bf : List Nat) (m : Nat) (h : m < 8 * bf.length) :
    bfClearBit bf (m : Int) =
      bf.set (m / 8) ((bf.getD (m / 8) 0) &&& (255 ^^^ 2 ^ (7 - m % 8))) := by
  simp only [bfClearBit, int_tdiv8_ofNat, int_tmod8_ofNat]
  rw [if_neg (by omega : ¬(((m / 8 : Nat) : Int) < 0 ∨
    (bf.length : Int) ≤ ((m / 8 : Nat) : Int)))]
  have h1 : ((m / 8 : Nat) : Int).toNat = m / 8 := by omega
  have h2 : ((7 : Int) - ((m % 8 : Nat) : Int)).toNat = 7 - m % 8 := by omega
  rw [h1, h2, mask_eq_pow (by omega)]

theorem bfHasBit_in_range (bf : List Nat) (m : Nat) (h : m < 8 * bf.length) :
    bfHasBit bf (m : Int) = (bf.getD (m / 8) 0).testBit (7 - m % 8) := by
  simp only [bfHasBit, int_tdiv8_ofNat, int_tmod8_ofNat]
  rw [if_neg (by omega : ¬(((m / 8 : Nat) : Int) < 0 ∨
    (bf.length : Int) ≤ ((m / 8 : Nat) : Int)))]
  have h1 : ((m / 8 : Nat) : Int).toNat = m / 8 := by omega
  have h2 : ((7 : Int) - ((m % 8 : Nat) : Int)).toNat = 7 - m % 8 := by omega
  simp only [h1, h2]
  exact hasBitExpr_eq_testBit _ _

theorem bfHasBit_ge (bf : List Nat) (m : Nat) (h : 8 * bf.length ≤ m) :
    bfHasBit bf (m : Int) = false := by
  simp only [bfHasBit, int_tdiv8_ofNat, int_tmod8_ofNat]
  rw [if_pos (by omega : ((m / 8 : Nat) : Int) < 0 ∨
    (bf.length : Int) ≤ ((m / 8 : Nat) : Int))]

theorem bfSetBit_ge (bf : List Nat) (m : Nat) (h : 8 * bf.length ≤ m) :
    bfSetBit bf (m : Int) = bf := by
  simp only [bfSetBit, int_tdiv8_ofNat, int_tmod8_ofNat]
  rw [if_pos (by omega : ((m / 8 : Nat) : Int) < 0 ∨
    (bf.length : Int) ≤ ((m / 8 : Nat) : Int))]

theorem bfClearBit_ge (bf : List Nat) (m : Nat) (h : 8 * bf.length ≤ m) :
    bfClearBit bf (m : Int) = bf := by
  simp only [bfClearBit, int_tdiv8_ofNat, int_tmod8_ofNat]
  rw [if_pos (by omega : ((m / 8 : Nat) : Int) < 0 ∨
    (bf.length : Int) ≤ ((m / 8 : Nat) : Int))]

theorem bfHasBit_neg (bf : List Nat) (m : Nat) (hb : ∀ b ∈ bf, b < 256) :
    bfHasBit bf (Int.negSucc m) = false := by
  simp only [bfHasBit, int_tdiv8_negSucc, int_tmod8_negSucc]
  by_cases hc : (m + 1) / 8 = 0
  · by_cases hlen : bf.length = 0
    · rw [if_pos (by omega)]
    · rw [if_neg (by omega)]
      have h1 : (-(((m + 1) / 8 : Nat) : Int)).toNat = 0 := by omega
      have h2 : ((7 : Int) - -(((m + 1) % 8 : Nat) : Int)).toNat = 7 + (m + 1) % 8 := by
        omega
      have hm1 : (m + 1) % 8 = m + 1 := by omega
      have hb0 : bf.getD 0 0 < 256 := hb _ (getD_mem bf 0 (by omega))
      have hz : bf.getD 0 0 >>> (7 + (m + 1)) = 0 := by
        rw [Nat.shiftRight_eq_div_pow]
        apply Nat.div_eq_of_lt
        calc bf.getD 0 0 < 256 := hb0
          _ ≤ 2 ^ (7 + (m + 1)) := by
            have h8 : (256 : Nat) = 2 ^ 8 := by norm_num
            rw [h8]
            exact Nat.pow_le_pow_right (by norm_num) (by omega)
      simp only [h2]
      simp only [h1, hm1, hz]
      simp
  · rw [if_pos (by omega)]

theorem bfSetBit_neg (bf : List Nat) (m : Nat) :
    bfSetBit bf (Int.negSucc m) = bf := by
  simp only [bfSetBit, int_tdiv8_negSucc, int_tmod8_negSucc]
  by_cases hc : (m + 1) / 8 = 0
  · by_cases hlen : bf.length = 0
    · rw [if_pos (by omega)]
    · rw [if_neg (by omega)]
      have h1 : (-(((m + 1) / 8 : Nat) : Int)).toNat = 0 := by omega
      have h2 : ((7 : Int) - -(((m + 1) % 8 : Nat) : Int)).toNat = 7 + (m + 1) % 8 := by
        omega
      rw [h1, h2, mask_eq_zero (by omega), Nat.or_zero]
      exact set_getD_self bf 0
  · rw [if_pos (by omega)]

theorem bfClearBit_neg (bf : List Nat) (m : Nat) (hb : ∀ b ∈ bf, b < 256) :
    bfClearBit bf (Int.negSucc m) = bf := by
  simp only [bfClearBit, int_tdiv8_negSucc, int_tmod8_negSucc]
  by_cases hc : (m + 1) / 8 = 0
  · by_cases hlen : bf.length = 0
    · rw [if_pos (by omega)]
    · rw [if_neg (by omega)]
      have h1 : (-(((m + 1) / 8 : Nat) : Int)).toNat = 0 := by omega
      have h2 : ((7 : Int) - -(((m + 1) % 8 : Nat) : Int)).toNat = 7 + (m + 1) % 8 := by
        omega
      rw [h1, h2, mask_eq_zero (by omega), Nat.xor_zero, byte_and_255]
      have hb0 : bf.getD 0 0 < 256 := hb _ (getD_mem bf 0 (by omega))
      rw [Nat.mod_eq_of_lt hb0]
      exact set_getD_self bf 0
  · rw [if_pos (by omega)]

theorem bfSet_has_self (bf : List Nat) (m : Nat) (h : m < 8 * bf.length) :
    bfHasBit (bfSetBit bf (m : Int)) (m : Int) = true := by
  rw [bfSetBit_in_range bf m h]
  rw [bfHasBit_in_range _ m (by rw [List.length_set]; exact h)]
  rw [getD_set_self _ _ _ (by omega)]
  rw [Nat.testBit_or, Nat.testBit_two_pow_self, Bool.or_true]

theorem bfSetBit_bound (bf : List Nat) (i : Int) (hb : ∀ b ∈ bf, b < 256) :
    ∀ b ∈ bfSetBit bf i, b < 256 := by
  rw [bfSetBit]
  split
  · exact hb
  · intro b hbm
    rcases mem_set_cases _ _ _ _ hbm with h1 | h1
    · exact hb b h1
    · rw [h1]
      have h8 : (256 : Nat) = 2 ^ 8 := by norm_num
      rw [h8]
      apply Nat.or_lt_two_pow
      · rw [← h8]
        rename_i hguard
        exact hb _ (getD_mem bf _ (by omega))
      · rw [← h8]
        exact Nat.mod_lt _ (by norm_num)

theorem bfClearBit_bound (bf : List Nat) (i : Int) (hb : ∀ b ∈ bf, b < 256) :
    ∀ b ∈ bfClearBit bf i, b < 256 := by
  rw [bfClearBit]
  split
  · exact hb
  · intro b hbm
    rcases mem_set_cases _ _ _ _ hbm with h1 | h1
    · exact hb b h1
    · rw [h1]
      rename_i hguard
      exact Nat.lt_of_le_of_lt Nat.and_le_left
        (hb _ (getD_mem bf _ (by omega)))

theorem bfSetBit_length (bf : List Nat) (i : Int) :
    (bfSetBit bf i).length = bf.length := by
  rw [bfSetBit]
  split
  · rfl
  · exact List.length_set bf _ _

theorem bfClearBit_length (bf : List Nat) (i : Int) :
    (bfClearBit bf i).length = bf.length := by
  rw [bfClearBit]
  split
  · rfl
  · exact List.length_set bf _ _

theorem bfSet_has_other (bf : List Nat) (i j : Int) (hb : ∀ b ∈ bf, b < 256)
    (hne : j ≠ i) : bfHasBit (bfSetBit bf i) j = bfHasBit bf j := by
  cases i with
  | ofNat iN =>
    rw [Int.ofNat_eq_coe] at hne ⊢
    by_cases hi : iN < 8 * bf.length
    · rw [bfSetBit_in_range bf iN hi]
      cases j with
      | ofNat jN =>
        rw [Int.ofNat_eq_coe] at hne ⊢
        by_cases hj : jN < 8 * bf.length
        · rw [bfHasBit_in_range _ jN (by rw [List.length_set]; exact hj)]
          rw [bfHasBit_in_range bf jN hj]
          by_cases hbyte : iN / 8 = jN / 8
          · rw [← hbyte, getD_set_self _ _ _ (by omega)]
            have hnN : iN ≠ jN := by
              intro hE
              exact hne (by rw [hE])
            rw [Nat.testBit_or, Nat.testBit_two_pow_of_ne (by omega), Bool.or_false]
          · rw [getD_set_other _ _ _ _ hbyte]
        · rw [bfHasBit_ge _ jN (by rw [List.length_set]; omega)]
          rw [bfHasBit_ge bf jN (by omega)]
      | negSucc jM =>
        rw [bfHasBit_neg _ jM ?hbnd, bfHasBit_neg bf jM hb]
        case hbnd =>
          rw [← bfSetBit_in_range bf iN hi]
          exact bfSetBit_bound bf (iN : Int) hb
    · rw [bfSetBit_ge bf iN (by omega)]
  | negSucc iM =>
    rw [bfSetBit_neg bf iM]

theorem bfHasBit_cons_shift (b : Nat) (t : List Nat) (k : Nat)
    (hk : k < 8 * t.length) :
    bfHasBit (b :: t) ((8 + k : Nat) : Int) = bfHasBit t (k : Int) := by
  rw [bfHasBit_in_range (b :: t) (8 + k) (by simp [List.length_cons]; omega)]
  rw [bfHasBit_in_range t k hk]
  have h1 : (8 + k) / 8 = k / 8 + 1 := by omega
  have h2 : (8 + k) % 8 = k % 8 := by omega
  rw [h1, h2]
  rfl

theorem bfHasBit_cons_head (b : Nat) (t : List Nat) (k : Nat) (hk : k < 8) :
    bfHasBit (b :: t) (k : Int) = b.testBit (7 - k) := by
  rw [bfHasBit_in_range (b :: t) k (by simp [List.length_cons]; omega)]
  have h1 : k / 8 = 0 := by omega
  have h2 : k % 8 = k := by omega
  rw [h1, h2]
  rfl

theorem onesCount8_eq_rev (b : Nat) :
    onesCount8 b = ((List.range 8).filter (fun k => b.testBit (7 - k))).length := by
  rw [onesCount8, ← List.countP_eq_length_filter, ← List.countP_eq_length_filter]
  have hmap : (List.range 8).map (fun k => 7 - k) = (List.range 8).reverse := by
    decide
  calc (List.range 8).countP (fun k => b.testBit k)
      = ((List.range 8).filter (fun k => b.testBit k)).length :=
        List.countP_eq_length_filter _ _
    _ = ((List.range 8).reverse.filter (fun k => b.testBit k)).length := by
        rw [List.filter_reverse, List.length_reverse]
    _ = ((List.range 8).reverse.countP (fun k => b.testBit k)) :=
        (List.countP_eq_length_filter _ _).symm
    _ = (((List.range 8).map (fun k => 7 - k)).countP (fun k => b.testBit k)) := by
        rw [hmap]
    _ = (List.range 8).countP ((fun k => b.testBit k) ∘ (fun k => 7 - k)) :=
        List.countP_map _ _ _
    _ = (List.range 8).countP (fun k => b.testBit (7 - k)) := rfl

theorem bfCount_eq (bf : List Nat) :
    bfCount bf =
      ((List.range (8 * bf.length)).filter (fun k : Nat => bfHasBit bf ((k : Nat) : Int))).length := by
  induction bf with
  | nil => rfl
  | cons b t ih =>
    have hlen : 8 * (b :: t).length = 8 + 8 * t.length := by
      simp [List.length_cons]
      omega
    rw [hlen, List.range_add, List.filter_append, List.length_append]
    have hhead : ((List.range 8).filter (fun k : Nat => bfHasBit (b :: t) ((k : Nat) : Int))).length
        = onesCount8 b := by
      rw [onesCount8_eq_rev]
      apply congrArg List.length
      apply List.filter_congr
      intro k hk
      exact bfHasBit_cons_head b t k (List.mem_range.mp hk)
    have htail : (((List.range (8 * t.length)).map (fun x => 8 + x)).filter
          (fun k : Nat => bfHasBit (b :: t) ((k : Nat) : Int))).length
        = ((List.range (8 * t.length)).filter (fun k : Nat => bfHasBit t ((k : Nat) : Int))).length := by
      rw [← List.countP_eq_length_filter, ← List.countP_eq_length_filter]
      rw [List.countP_map]
      rw [List.countP_eq_length_filter, List.countP_eq_length_filter]
      apply congrArg List.length
      apply List.filter_congr
      intro k hk
      show bfHasBit (b :: t) ((8 + k : Nat) : Int) = bfHasBit t (k : Int)
      exact bfHasBit_cons_shift b t k (List.mem_range.mp hk)
    rw [hhead, htail, ← ih]
    simp [bfCount]

theorem bfRun_length_bound (bf : List Nat) (ops : List BFOp)
    (hb : ∀ b ∈ bf, b < 256) :
    (bfRun bf ops).length = bf.length ∧ (∀ b ∈ bfRun bf ops, b < 256) := by
  induction ops generalizing bf with
  | nil => exact ⟨rfl, hb⟩
  | cons op t ih =>
    have hstep : bfRun bf (op :: t) = bfRun (bfApply bf op) t := rfl
    rw [hstep]
    have hlen : (bfApply bf op).length = bf.length := by
      cases op with
      | has i => rfl
      | set i => exact bfSetBit_length bf i
      | clear i => exact bfClearBit_length bf i
    have hbnd : ∀ b ∈ bfApply bf op, b < 256 := by
      cases op with
      | has i => exact hb
      | set i => exact bfSetBit_bound bf i hb
      | clear i => exact bfClearBit_bound bf i hb
    obtain ⟨h1, h2⟩ := ih (bfApply bf op) hbnd
    exact ⟨h1.trans hlen, h2⟩

/-- Counterexample to the literal reading of C8: index 10 is out of range for a
9-bit bitfield (10 ≥ 9), yet `SetBit` modifies the stored bytes — the guard in
the Go code only checks the byte index against the slice length, so padding-bit
indices fall through and flip bits. -/
theorem bitfield_out_of_range_set_modifies :
    bfNew 9 = [0, 0] ∧ bfSetBit (bfNew 9) 10 ≠ bfNew 9 ∧
    bfSetBit (bfNew 9) 10 = [0, 32] ∧
    bfHasBit (bfSetBit (bfNew 9) 10) 10 = true := by decide

/-- C8 (amended): `New n` allocates ⌈n/8⌉ zeroed bytes; for an index inside the
allocated storage (i < 8·⌈n/8⌉, not merely i < n), `SetBit i` makes `HasBit i`
true and leaves every other index unchanged; `Count` is the number of set bits;
and `SetBit`/`ClearBit`/`HasBit` are no-ops (with `HasBit` false) exactly for
indices outside the storage: negative, or ≥ 8·(number of bytes). -/
theorem bitfield_set_has_count :
    (∀ n : Int, 0 ≤ n → bfNew n = List.replicate ((n.toNat + 7) / 8) 0) ∧
    (∀ (bf : List Nat) (i : Nat), (∀ b ∈ bf, b < 256) → i < 8 * bf.length →
      bfHasBit (bfSetBit bf (i : Int)) (i : Int) = true ∧
        ∀ j : Int, j ≠ (i : Int) →
          bfHasBit (bfSetBit bf (i : Int)) j = bfHasBit bf j) ∧
    (∀ bf : List Nat, bfCount bf =
      ((List.range (8 * bf.length)).filter
        (fun k : Nat => bfHasBit bf ((k : Nat) : Int))).length) ∧
    (∀ (bf : List Nat) (i : Int), (∀ b ∈ bf, b < 256) →
      (i < 0 ∨ 8 * (bf.length : Int) ≤ i) →
      bfSetBit bf i = bf ∧ bfClearBit bf i = bf ∧ bfHasBit bf i = false) := by
  refine ⟨?_, ?_, ?_, ?_⟩
  · intro n hn
    obtain ⟨m, rfl⟩ : ∃ m : Nat, n = (m : Int) :=
      ⟨n.toNat, (Int.toNat_of_nonneg hn).symm⟩
    simp only [bfNew]
    have h7 : (m : Int) + 7 = ((m + 7 : Nat) : Int) := by push_cast; ring
    rw [h7, int_tdiv8_ofNat, if_neg (by omega)]
    congr 1
  · intro bf i hb hi
    exact ⟨bfSet_has_self bf i hi,
      fun j hj => bfSet_has_other bf (i : Int) j hb hj⟩
  · exact bfCount_eq
  · intro bf i hb hrange
    cases i with
    | ofNat m =>
      rw [Int.ofNat_eq_coe] at hrange ⊢
      have hm : 8 * bf.length ≤ m := by omega
      exact ⟨bfSetBit_ge bf m hm, bfClearBit_ge bf m hm, bfHasBit_ge bf m hm⟩
    | negSucc m =>
      exact ⟨bfSetBit_neg bf m, bfClearBit_neg bf m hb, bfHasBit_neg bf m hb⟩

/-- Concrete instance of `bitfield_set_has_count`: on a fresh 9-bit field,
setting bit 3 makes bit 3 read back true. -/
theorem bitfield_set_has_count_witness :
    bfHasBit (bfSetBit (bfNew 9) ((3 : Nat) : Int)) ((3 : Nat) : Int) = true :=
  (bitfield_set_has_count.2.1 (bfNew 9) 3 (by decide) (by decide)).1

/-- Counterexample to the literal reading of C9: bit 10 lies in the padding
byte of a 9-bit bitfield (9 ≤ 10 < 16), and a single `SetBit 10` both changes
the stored bytes and makes `HasBit 10` true, so bits at positions ≥ n do not
all remain zero. -/
theorem bitfield_padding_bits_get_set :
    bfSetBit (bfNew 9) 10 ≠ bfNew 9 ∧
    bfHasBit (bfSetBit (bfNew 9) 10) 10 = true := by decide

/-- C9 (amended): over any sequence of has/set/clear calls starting from
`New n`, the byte count never changes, every stored byte stays below 256, and
every bit index at or beyond the storage (k ≥ 8·⌈n/8⌉) always reads false —
whereas bits inside the trailing padding byte (n ≤ i < 8·⌈n/8⌉) are mutable. -/
theorem bitfield_storage_bits_invariant (n : Int) (ops : List BFOp)
    (_hn : 0 ≤ n) :
    (bfRun (bfNew n) ops).length = (bfNew n).length ∧
    (∀ b ∈ bfRun (bfNew n) ops, b < 256) ∧
    (∀ k : Int, 8 * ((bfNew n).length : Int) ≤ k →
      bfHasBit (bfRun (bfNew n) ops) k = false) := by
  have hb0 : ∀ b ∈ bfNew n, b < 256 := by
    intro b hbm
    simp only [bfNew] at hbm
    rw [List.eq_of_mem_replicate hbm]
    norm_num
  obtain ⟨h1, h2⟩ := bfRun_length_bound (bfNew n) ops hb0
  refine ⟨h1, h2, ?_⟩
  intro k hk
  cases k with
  | ofNat m =>
    rw [Int.ofNat_eq_coe] at hk ⊢
    apply bfHasBit_ge
    omega
  | negSucc m =>
    exact bfHasBit_neg _ m h2

/-- Concrete instance of `bitfield_storage_bits_invariant`: after setting
bit 10 of a 9-bit field, bit 16 (the first bit beyond the two stored bytes)
reads false. -/
theorem bitfield_storage_bits_invariant_witness :
    bfHasBit (bfRun (bfNew 9) [BFOp.set 10]) ((16 : Nat) : Int) = false :=
  (bitfield_storage_bits_invariant 9 [BFOp.set 10] (by decide)).2.2
    ((16 : Nat) : Int) (by decide)

theorem udpStep_dead (env : Nat → UdpEnv) (dl : Int) (hd : Bool)
    (n rem connID : Nat) (ttl : Int)
    (hto : backoffWindow dl hd n (env n).now ≤ 0) :
    udpLoop env dl hd n (rem + 1) connID ttl = (UdpResult.deadlineExceeded, []) := by
  simp only [udpLoop]
  rw [if_pos hto]

theorem udpStep_conn_ok (env : Nat → UdpEnv) (dl : Int) (hd : Bool)
    (n rem connID : Nat) (ttl : Int)
    (hto : ¬ backoffWindow dl hd n (env n).now ≤ 0)
    (hc : ttl < (env n).now) (hok : (env n).connectOk = true)
    (hout : (env n).outcome = AnnOutcome.ok) :
    udpLoop env dl hd n (rem + 1) connID ttl
      = (UdpResult.response (env n).connID (env n).annTxn,
         [UdpAttempt.mk (backoffWindow dl hd n (env n).now) true
           (some (env n).annTxn) false]) := by
  simp only [udpLoop]
  rw [if_neg hto, if_pos hc, hok, hout]
  simp

theorem udpStep_conn_mis (env : Nat → UdpEnv) (dl : Int) (hd : Bool)
    (n rem connID : Nat) (ttl : Int)
    (hto : ¬ backoffWindow dl hd n (env n).now ≤ 0)
    (hc : ttl < (env n).now) (hok : (env n).connectOk = true)
    (hout : (env n).outcome = AnnOutcome.mismatch) :
    udpLoop env dl hd n (rem + 1) connID ttl
      = ((udpLoop env dl hd (n + 1) rem (env n).connID 0).1,
         UdpAttempt.mk (backoffWindow dl hd n (env n).now) true
           (some (env n).annTxn) true
           :: (udpLoop env dl hd (n + 1) rem (env n).connID 0).2) := by
  simp only [udpLoop]
  rw [if_neg hto, if_pos hc, hok, hout]
  simp

theorem udpStep_conn_fail (env : Nat → UdpEnv) (dl : Int) (hd : Bool)
    (n rem connID : Nat) (ttl : Int)
    (hto : ¬ backoffWindow dl hd n (env n).now ≤ 0)
    (hc : ttl < (env n).now) (hok : (env n).connectOk = true)
    (hout : (env n).outcome = AnnOutcome.fail) :
    udpLoop env dl hd n (rem + 1) connID ttl
      = ((udpLoop env dl hd (n + 1) rem (env n).connID
            ((env n).now + connectionIDTTLdur)).1,
         UdpAttempt.mk (backoffWindow dl hd n (env n).now) true
           (some (env n).annTxn) false
           :: (udpLoop env dl hd (n + 1) rem (env n).connID
                ((env n).now + connectionIDTTLdur)).2) := by
  simp only [udpLoop]
  rw [if_neg hto, if_pos hc, hok, hout]
  simp

theorem udpStep_connfail (env : Nat → UdpEnv) (dl : Int) (hd : Bool)
    (n rem connID : Nat) (ttl : Int)
    (hto : ¬ backoffWindow dl hd n (env n).now ≤ 0)
    (hc : ttl < (env n).now) (hok : (env n).connectOk = false) :
    udpLoop env dl hd n (rem + 1) connID ttl
      = ((udpLoop env dl hd (n + 1) rem connID ttl).1,
         UdpAttempt.mk (backoffWindow dl hd n (env n).now) true none false
           :: (udpLoop env dl hd (n + 1) rem connID ttl).2) := by
  simp only [udpLoop]
  rw [if_neg hto, if_pos hc, hok]
  simp

theorem udpStep_old_ok (env : Nat → UdpEnv) (dl : Int) (hd : Bool)
    (n rem connID : Nat) (ttl : Int)
    (hto : ¬ backoffWindow dl hd n (env n).now ≤ 0)
    (hc : ¬ ttl < (env n).now)
    (hout : (env n).outcome = AnnOutcome.ok) :
    udpLoop env dl hd n (rem + 1) connID ttl
      = (UdpResult.response connID (env n).annTxn,
         [UdpAttempt.mk (backoffWindow dl hd n (env n).now) false
           (some (env n).annTxn) false]) := by
  simp only [udpLoop]
  rw [if_neg hto, if_neg hc, hout]

theorem udpStep_old_mis (env : Nat → UdpEnv) (dl : Int) (hd : Bool)
    (n rem connID : Nat) (ttl : Int)
    (hto : ¬ backoffWindow dl hd n (env n).now ≤ 0)
    (hc : ¬ ttl < (env n).now)
    (hout : (env n).outcome = AnnOutcome.mismatch) :
    udpLoop env dl hd n (rem + 1) connID ttl
      = ((udpLoop env dl hd (n + 1) rem connID 0).1,
         UdpAttempt.mk (backoffWindow dl hd n (env n).now) false
           (some (env n).annTxn) true
           :: (udpLoop env dl hd (n + 1) rem connID 0).2) := by
  simp only [udpLoop]
  rw [if_neg hto, if_neg hc, hout]

theorem udpStep_old_fail (env : Nat → UdpEnv) (dl : Int) (hd : Bool)
    (n rem connID : Nat) (ttl : Int)
    (hto : ¬ backoffWindow dl hd n (env n).now ≤ 0)
    (hc : ¬ ttl < (env n).now)
    (hout : (env n).outcome = AnnOutcome.fail) :
    udpLoop env dl hd n (rem + 1) connID ttl
      = ((udpLoop env dl hd (n + 1) rem connID ttl).1,
         UdpAttempt.mk (backoffWindow dl hd n (env n).now) false
           (some (env n).annTxn) false
           :: (udpLoop env dl hd (n + 1) rem connID ttl).2) := by
  simp only [udpLoop]
  rw [if_neg hto, if_neg hc, hout]

theorem udpLoop_spec (env : Nat → UdpEnv) (dl : Int) (hd : Bool) :
    ∀ (rem n connID : Nat) (ttl : Int),
      ((udpLoop env dl hd n rem connID ttl).2.length ≤ rem) ∧
      (∀ k, k < (udpLoop env dl hd n rem connID ttl).2.length →
        ((udpLoop env dl hd n rem connID ttl).2.getD k dummyAttempt).timeout
          = backoffWindow dl hd (n + k) ((env (n + k)).now)) ∧
      (∀ k, k < (udpLoop env dl hd n rem connID ttl).2.length →
        ((udpLoop env dl hd n rem connID ttl).2.getD k dummyAttempt).txn = none ∨
        ((udpLoop env dl hd n rem connID ttl).2.getD k dummyAttempt).txn
          = some ((env (n + k)).annTxn)) ∧
      (∀ k, k + 1 < (udpLoop env dl hd n rem connID ttl).2.length →
        ((udpLoop env dl hd n rem connID ttl).2.getD k dummyAttempt).mismatched = true →
        0 < (env (n + k + 1)).now →
        ((udpLoop env dl hd n rem connID ttl).2.getD (k + 1) dummyAttempt).didConnect
          = true) ∧
      ((udpLoop env dl hd n rem connID ttl).2 ≠ [] → ttl < (env n).now →
        ((udpLoop env dl hd n rem connID ttl).2.getD 0 dummyAttempt).didConnect
          = true) := by
  intro rem
  induction rem with
  | zero =>
    intro n connID ttl
    refine ⟨?_, ?_, ?_, ?_, ?_⟩ <;> simp [udpLoop]
  | succ rem ih =>
    intro n connID ttl
    by_cases hto : backoffWindow dl hd n (env n).now ≤ 0
    · have heq := udpStep_dead env dl hd n rem connID ttl hto
      refine ⟨?_, ?_, ?_, ?_, ?_⟩ <;> simp [heq]
    · by_cases hc : ttl < (env n).now
      · cases hok : (env n).connectOk with
        | true =>
          cases hout : (env n).outcome with
          | ok =>
            have heq := udpStep_conn_ok env dl hd n rem connID ttl hto hc hok hout
            refine ⟨?_, ?_, ?_, ?_, ?_⟩
            · simp [heq]
            · intro k hk
              simp only [heq, List.length_cons, List.length_nil] at hk
              interval_cases k
              simp [heq, List.getD_cons_zero]
            · intro k hk
              simp only [heq, List.length_cons, List.length_nil] at hk
              interval_cases k
              exact Or.inr (by simp [heq, List.getD_cons_zero])
            · intro k hk
              simp only [heq, List.length_cons, List.length_nil] at hk
              omega
            · intro _ _
              simp [heq, List.getD_cons_zero]
          | mismatch =>
            have heq := udpStep_conn_mis env dl hd n rem connID ttl hto hc hok hout
            obtain ⟨ih1, ih2, ih3, ih4, ih5⟩ := ih (n + 1) (env n).connID 0
            refine ⟨?_, ?_, ?_, ?_, ?_⟩
            · simp only [heq, List.length_cons]
              omega
            · intro k hk
              simp only [heq, List.length_cons] at hk
              cases k with
              | zero => simp [heq, List.getD_cons_zero]
              | succ k =>
                simp only [heq, List.getD_cons_succ]
                have h2 := ih2 k (by omega)
                have he : n + 1 + k = n + (k + 1) := by omega
                rw [he] at h2
                exact h2
            · intro k hk
              simp only [heq, List.length_cons] at hk
              cases k with
              | zero => exact Or.inr (by simp [heq, List.getD_cons_zero])
              | succ k =>
                simp only [heq, List.getD_cons_succ]
                have h3 := ih3 k (by omega)
                have he : n + 1 + k = n + (k + 1) := by omega
                rw [he] at h3
                exact h3
            · intro k hk hm hn0
              simp only [heq, List.length_cons] at hk
              cases k with
              | zero =>
                simp only [heq, List.getD_cons_succ]
                apply ih5
                · rw [← List.length_pos]
                  omega
                · have he : n + 0 + 1 = n + 1 := by omega
                  rw [he] at hn0
                  exact hn0
              | succ k =>
                simp only [heq, List.getD_cons_succ] at hm ⊢
                have h4 := ih4 k (by omega) hm ?hnow
                case hnow =>
                  have he : n + (k + 1) + 1 = n + 1 + k + 1 := by omega
                  rw [he] at hn0
                  exact hn0
                exact h4
            · intro _ _
              simp [heq, List.getD_cons_zero]
          | fail =>
            have heq := udpStep_conn_fail env dl hd n rem connID ttl hto hc hok hout
            obtain ⟨ih1, ih2, ih3, ih4, ih5⟩ :=
              ih (n + 1) (env n).connID ((env n).now + connectionIDTTLdur)
            refine ⟨?_, ?_, ?_, ?_, ?_⟩
            · simp only [heq, List.length_cons]
              omega
            · intro k hk
              simp only [heq, List.length_cons] at hk
              cases k with
              | zero => simp [heq, List.getD_cons_zero]
              | succ k =>
                simp only [heq, List.getD_cons_succ]
                have h2 := ih2 k (by omega)
                have he : n + 1 + k = n + (k + 1) := by omega
                rw [he] at h2
                exact h2
            · intro k hk
              simp only [heq, List.length_cons] at hk
              cases k with
              | zero => exact Or.inr (by simp [heq, List.getD_cons_zero])
              | succ k =>
                simp only [heq, List.getD_cons_succ]
                have h3 := ih3 k (by omega)
                have he : n + 1 + k = n + (k + 1) := by omega
                rw [he] at h3
                exact h3
            · intro k hk hm hn0
              simp only [heq, List.length_cons] at hk
              cases k with
              | zero => simp [heq, List.getD_cons_zero] at hm
              | succ k =>
                simp only [heq, List.getD_cons_succ] at hm ⊢
                have he : n + (k + 1) + 1 = n + 1 + k + 1 := by omega
                rw [he] at hn0
                exact ih4 k (by omega) hm hn0
            · intro _ _
              simp [heq, List.getD_cons_zero]
        | false =>
          have heq := udpStep_connfail env dl hd n rem connID ttl hto hc hok
          obtain ⟨ih1, ih2, ih3, ih4, ih5⟩ := ih (n + 1) connID ttl
          refine ⟨?_, ?_, ?_, ?_, ?_⟩
          · simp only [heq, List.length_cons]
            omega
          · intro k hk
            simp only [heq, List.length_cons] at hk
            cases k with
            | zero => simp [heq, List.getD_cons_zero]
            | succ k =>
              simp only [heq, List.getD_cons_succ]
              have h2 := ih2 k (by omega)
              have he : n + 1 + k = n + (k + 1) := by omega
              rw [he] at h2
              exact h2
          · intro k hk
            simp only [heq, List.length_cons] at hk
            cases k with
            | zero => exact Or.inl (by simp [heq, List.getD_cons_zero])
            | succ k =>
              simp only [heq, List.getD_cons_succ]
              have h3 := ih3 k (by omega)
              have he : n + 1 + k = n + (k + 1) := by omega
              rw [he] at h3
              exact h3
          · intro k hk hm hn0
            simp only [heq, List.length_cons] at hk
            cases k with
            | zero => simp [heq, List.getD_cons_zero] at hm
            | succ k =>
              simp only [heq, List.getD_cons_succ] at hm ⊢
              have he : n + (k + 1) + 1 = n + 1 + k + 1 := by omega
              rw [he] at hn0
              exact ih4 k (by omega) hm hn0
          · intro _ _
            simp [heq, List.getD_cons_zero]
      · cases hout : (env n).outcome with
        | ok =>
          have heq := udpStep_old_ok env dl hd n rem connID ttl hto hc hout
          refine ⟨?_, ?_, ?_, ?_, ?_⟩
          · simp [heq]
          · intro k hk
            simp only [heq, List.length_cons, List.length_nil] at hk
            interval_cases k
            simp [heq, List.getD_cons_zero]
          · intro k hk
            simp only [heq, List.length_cons, List.length_nil] at hk
            interval_cases k
            exact Or.inr (by simp [heq, List.getD_cons_zero])
          · intro k hk
            simp only [heq, List.length_cons, List.length_nil] at hk
            omega
          · intro _ hlt
            exact absurd hlt hc
        | mismatch =>
          have heq := udpStep_old_mis env dl hd n rem connID ttl hto hc hout
          obtain ⟨ih1, ih2, ih3, ih4, ih5⟩ := ih (n + 1) connID 0
          refine ⟨?_, ?_, ?_, ?_, ?_⟩
          · simp only [heq, List.length_cons]
            omega
          · intro k hk
            simp only [heq, List.length_cons] at hk
            cases k with
            | zero => simp [heq, List.getD_cons_zero]
            | succ k =>
              simp only [heq, List.getD_cons_succ]
              have h2 := ih2 k (by omega)
              have he : n + 1 + k = n + (k + 1) := by omega
              rw [he] at h2
              exact h2
          · intro k hk
            simp only [heq, List.length_cons] at hk
            cases k with
            | zero => exact Or.inr (by simp [heq, List.getD_cons_zero])
            | succ k =>
              simp only [heq, List.getD_cons_succ]
              have h3 := ih3 k (by omega)
              have he : n + 1 + k = n + (k + 1) := by omega
              rw [he] at h3
              exact h3
          · intro k hk hm hn0
            simp only [heq, List.length_cons] at hk
            cases k with
            | zero =>
              simp only [heq, List.getD_cons_succ]
              apply ih5
              · rw [← List.length_pos]
                omega
              · have he : n + 0 + 1 = n + 1 := by omega
                rw [he] at hn0
                exact hn0
            | succ k =>
              simp only [heq, List.getD_cons_succ] at hm ⊢
              have he : n + (k + 1) + 1 = n + 1 + k + 1 := by omega
              rw [he] at hn0
              exact ih4 k (by omega) hm hn0
          · intro _ hlt
            exact absurd hlt hc
        | fail =>
          have heq := udpStep_old_fail env dl hd n rem connID ttl hto hc hout
          obtain ⟨ih1, ih2, ih3, ih4, ih5⟩ := ih (n + 1) connID ttl
          refine ⟨?_, ?_, ?_, ?_, ?_⟩
          · simp only [heq, List.length_cons]
            omega
          · intro k hk
            simp only [heq, List.length_cons] at hk
            cases k with
            | zero => simp [heq, List.getD_cons_zero]
            | succ k =>
              simp only [heq, List.getD_cons_succ]
              have h2 := ih2 k (by omega)
              have he : n + 1 + k = n + (k + 1) := by omega
              rw [he] at h2
              exact h2
          · intro k hk
            simp only [heq, List.length_cons] at hk
            cases k with
            | zero => exact Or.inr (by simp [heq, List.getD_cons_zero])
            | succ k =>
              simp only [heq, List.getD_cons_succ]
              have h3 := ih3 k (by omega)
              have he : n + 1 + k = n + (k + 1) := by omega
              rw [he] at h3
              exact h3
          · intro k hk hm hn0
            simp only [heq, List.length_cons] at hk
            cases k with
            | zero => simp [heq, List.getD_cons_zero] at hm
            | succ k =>
              simp only [heq, List.getD_cons_succ] at hm ⊢
              have he : n + (k + 1) + 1 = n + 1 + k + 1 := by omega
              rw [he] at hn0
              exact ih4 k (by omega) hm hn0
          · intro _ hlt
            exact absurd hlt hc

/-- Counterexample to the attempt bound stated in C5: with every announce read
timing out, `for n := 0; n <= maxRetries; n++` with `maxRetries = 8` performs
nine attempts (not "at most 8"), with socket timeouts 15 s · 2^n, before giving
up. -/
theorem udp_announce_nine_attempts :
    (udpAnnounceRun (fun _ => UdpEnv.mk 1 true 7 5 AnnOutcome.fail)
      0 false).2.length = maxRetries + 1 ∧
    ¬((udpAnnounceRun (fun _ => UdpEnv.mk 1 true 7 5 AnnOutcome.fail)
      0 false).2.length ≤ maxRetries) ∧
    (udpAnnounceRun (fun _ => UdpEnv.mk 1 true 7 5 AnnOutcome.fail)
      0 false).1 = UdpResult.exhausted ∧
    ((udpAnnounceRun (fun _ => UdpEnv.mk 1 true 7 5 AnnOutcome.fail)
      0 false).2.map (fun a => a.timeout))
      = [15000000000, 30000000000, 60000000000, 120000000000, 240000000000,
         480000000000, 960000000000, 1920000000000, 3840000000000] := by
  decide

/-- C5 (amended): the UDP announce loop makes at most `maxRetries + 1 = 9`
attempts; attempt `n` uses socket timeout `backoffWindow`, which is
`baseBackoff · 2^n` (Go: `15s << n`) without a deadline and that value clamped
into `[0, deadline - now]` with one; every announce packet actually sent at
attempt `k` carries that attempt's own fresh `randU32` sample; and after an
action/transaction-id mismatch at attempt `k` the cached connection id TTL is
zeroed, so attempt `k + 1` (at any positive clock reading) re-runs the connect
exchange. -/
theorem udp_announce_retry_backoff :
    (∀ (env : Nat → UdpEnv) (dl : Int) (hd : Bool),
      (udpAnnounceRun env dl hd).2.length ≤ maxRetries + 1) ∧
    (∀ (dl now : Int) (n : Nat),
      backoffWindow dl false n now = baseBackoff * 2 ^ n) ∧
    (∀ (dl now : Int) (n : Nat),
      backoffWindow dl true n now = max 0 (min (dl - now) (baseBackoff * 2 ^ n))) ∧
    (∀ (env : Nat → UdpEnv) (dl : Int) (hd : Bool) (k : Nat),
      k < (udpAnnounceRun env dl hd).2.length →
      ((udpAnnounceRun env dl hd).2.getD k dummyAttempt).timeout
        = backoffWindow dl hd k (env k).now) ∧
    (∀ (env : Nat → UdpEnv) (dl : Int) (hd : Bool) (k : Nat),
      k < (udpAnnounceRun env dl hd).2.length →
      ((udpAnnounceRun env dl hd).2.getD k dummyAttempt).txn = none ∨
      ((udpAnnounceRun env dl hd).2.getD k dummyAttempt).txn
        = some ((env k).annTxn)) ∧
    (∀ (env : Nat → UdpEnv) (dl : Int) (hd : Bool) (k : Nat),
      k + 1 < (udpAnnounceRun env dl hd).2.length →
      ((udpAnnounceRun env dl hd).2.getD k dummyAttempt).mismatched = true →
      0 < (env (k + 1)).now →
      ((udpAnnounceRun env dl hd).2.getD (k + 1) dummyAttempt).didConnect
        = true) := by
  refine ⟨?_, ?_, ?_, ?_, ?_, ?_⟩
  · intro env dl hd
    have h := (udpLoop_spec env dl hd (maxRetries + 1) 0 0 0).1
    simpa [udpAnnounceRun] using h
  · intro dl now n
    simp [backoffWindow]
  · intro dl now n
    have hb : (0 : Int) < baseBackoff * 2 ^ n := by
      have h1 : (0 : Int) < baseBackoff := by norm_num [baseBackoff]
      exact mul_pos h1 (pow_pos (by norm_num) n)
    simp only [backoffWindow, Bool.not_true, Bool.false_eq_true, if_false,
      min_def, max_def]
    split_ifs <;> omega
  · intro env dl hd k hk
    simp only [udpAnnounceRun] at hk ⊢
    have h := (udpLoop_spec env dl hd (maxRetries + 1) 0 0 0).2.1 k hk
    simpa using h
  · intro env dl hd k hk
    simp only [udpAnnounceRun] at hk ⊢
    have h := (udpLoop_spec env dl hd (maxRetries + 1) 0 0 0).2.2.1 k hk
    simpa using h
  · intro env dl hd k hk hm hn0
    simp only [udpAnnounceRun] at hk hm ⊢
    have h := (udpLoop_spec env dl hd (maxRetries + 1) 0 0 0).2.2.2.1 k hk hm
      (by simpa using hn0)
    simpa using h

/-- Concrete instance of `udp_announce_retry_backoff`: with no context
deadline, the third attempt (n = 2) of an all-timeout run uses the
`backoffWindow` timeout for n = 2, i.e. 60 s. -/
theorem udp_announce_retry_backoff_witness :
    ((udpAnnounceRun (fun _ => UdpEnv.mk 1 true 7 5 AnnOutcome.fail)
      0 false).2.getD 2 dummyAttempt).timeout = backoffWindow 0 false 2 1 :=
  udp_announce_retry_backoff.2.2.2.1
    (fun _ => UdpEnv.mk 1 true 7 5 AnnOutcome.fail) 0 false 2 (by decide)

end Echo
